import Mathlib

/-!
Verification of the balanced hybrid org-chart layout engine
(`computeBalancedLayout` / `positionNode` in `src/components/OrgChart.tsx`).

The engine is embedded shallowly: the JavaScript number arithmetic is
modelled by exact rational arithmetic over `ℚ`.  The two places where the
source calls `Math.sqrt` are modelled without leaving `ℚ`:

* `Math.ceil(Math.sqrt(q))` (grid column count) is `ceilSqrt q`, the least
  natural `n` with `q ≤ n ^ 2`;
* the comparison `x > Math.sqrt c` (wrap row overflow test, where `c ≥ 0`,
  from widths and a positive aspect ratio, at every reachable call) is
  `gtSqrt x c`, namely `0 ≤ x ∧ c < x ^ 2`.

Both encodings are proved to agree with `Real.sqrt` below
(`gtSqrt_iff`, `ceilSqrt_eq_ceil_sqrt`).

The sizing pass stores each child's footprint (width × height); the row
grouping built by the grid and wrap branches is tracked by the per-row
footprint lists and, on the node record, by the row lengths — the grouping
is by consecutive children, so the lengths recover the exact groups
(`splitLens`), which is what the positioning pass consumes.
-/

/-! ### Configuration constants (`OrgChart.tsx`, lines 17–22) -/

def CARD_WIDTH : ℚ := 180
def CARD_HEIGHT : ℚ := 74
def GAP_H : ℚ := 20
def GAP_V : ℚ := 48
def GRID_GAP : ℚ := 12
def CHANNEL_WIDTH : ℚ := 30

/-! ### Data model -/

/-- The input hierarchy: only the identity and the child list matter to the
layout engine (display fields are opaque to it). -/
inductive OrgTree : Type where
  | node (id : ℕ) (children : List OrgTree)

def OrgTree.id : OrgTree → ℕ
  | .node i _ => i

def OrgTree.children : OrgTree → List OrgTree
  | .node _ cs => cs

/-- Layout classification assigned by the sizing pass
(the strings `'leaf' | 'row' | 'grid' | 'wrap'` in the source). -/
inductive Layout : Type where
  | leaf | row | grid | wrap
deriving Repr, DecidableEq

/-- A node after the post-order sizing pass (`root.eachAfter`): the scratch
fields `_w`, `_h`, `_layout` attached to each node, the row partition
`_rows` recorded by its row lengths (`rowLens`), and the sized children. -/
inductive Sized : Type where
  | mk (id : ℕ) (w h : ℚ) (layout : Layout) (rowLens : List ℕ)
       (children : List Sized)

def Sized.id : Sized → ℕ
  | .mk i _ _ _ _ _ => i

def Sized.w : Sized → ℚ
  | .mk _ w _ _ _ _ => w

def Sized.h : Sized → ℚ
  | .mk _ _ h _ _ _ => h

def Sized.layout : Sized → Layout
  | .mk _ _ _ l _ _ => l

def Sized.rowLens : Sized → List ℕ
  | .mk _ _ _ _ lens _ => lens

def Sized.children : Sized → List Sized
  | .mk _ _ _ _ _ cs => cs

/-- The footprint of a sized node. -/
def Sized.dim (c : Sized) : ℚ × ℚ := (c.w, c.h)

/-- Footprints of a list of sized nodes, in order. -/
def Sized.dims (cs : List Sized) : List (ℚ × ℚ) := cs.map Sized.dim

/-- A node after the pre-order positioning pass: absolute coordinates
(`x` = horizontal centre of the card, `y` = top edge of the card) together
with the sizing data. -/
inductive PTree : Type where
  | mk (id : ℕ) (x y w h : ℚ) (layout : Layout) (rowLens : List ℕ)
       (children : List PTree)

def PTree.id : PTree → ℕ
  | .mk i _ _ _ _ _ _ _ => i

def PTree.x : PTree → ℚ
  | .mk _ x _ _ _ _ _ _ => x

def PTree.y : PTree → ℚ
  | .mk _ _ y _ _ _ _ _ => y

def PTree.w : PTree → ℚ
  | .mk _ _ _ w _ _ _ _ => w

def PTree.h : PTree → ℚ
  | .mk _ _ _ _ h _ _ _ => h

def PTree.layout : PTree → Layout
  | .mk _ _ _ _ _ l _ _ => l

def PTree.rowLens : PTree → List ℕ
  | .mk _ _ _ _ _ _ lens _ => lens

def PTree.children : PTree → List PTree
  | .mk _ _ _ _ _ _ _ cs => cs

/-- The footprint of a positioned node. -/
def PTree.dim (c : PTree) : ℚ × ℚ := (c.w, c.h)

/-! ### Arithmetic helpers -/

/-- Fold of `Math.max` starting from `0`, as the source accumulates maxima
(`maxChildH`, `maxRowW`, `rowH`, `maxH`). -/
def maxList (l : List ℚ) : ℚ := l.foldl max 0

/-- Sum of a list of widths with `gap` inserted between consecutive items:
the loops `linearW += c._w; if (i < n-1) linearW += GAP_H` and the
`wLeft`/`wRight` accumulations of the source. -/
def packedW (gap : ℚ) : List ℚ → ℚ
  | [] => 0
  | [w] => w
  | w :: rest => w + gap + packedW gap rest

/-- `x > Math.sqrt c`, encoded inside `ℚ`.  For `0 ≤ c` this is equivalent
to `Real.sqrt c < x` (proved in `gtSqrt_iff`). -/
def gtSqrt (x c : ℚ) : Bool := decide (0 ≤ x ∧ c < x ^ 2)

/-- Fuel-driven search for the least `n ≥ acc` with `q ≤ n ^ 2`. -/
def ceilSqrtGo (q : ℚ) : ℕ → ℕ → ℕ
  | 0, acc => acc
  | fuel + 1, acc => if q ≤ (acc : ℚ) ^ 2 then acc else ceilSqrtGo q fuel (acc + 1)

/-- `Math.ceil(Math.sqrt q)` for a rational `q`: the least natural `n`
with `q ≤ n ^ 2` (equal to `⌈Real.sqrt q⌉₊`, proved in
`ceilSqrt_eq_ceil_sqrt`). -/
def ceilSqrt (q : ℚ) : ℕ := ceilSqrtGo q (⌈q⌉₊ + 1) 0

/-! ### Row construction -/

/-- Grid row construction, fuel-driven version of
`for (let i = 0; i < count; i += cols) rows.push(children.slice(i, i + cols))`.
The fuel is the list length, which suffices whenever `1 ≤ cols`
(`cols = 0` would not terminate in the source either; it is unreachable,
since the column count is at least 1 for a nonempty child list). -/
def chunksGo {α : Type} (cols : ℕ) : ℕ → List α → List (List α)
  | _, [] => []
  | 0, _ :: _ => []
  | fuel + 1, c :: cs => (c :: cs.take (cols - 1)) :: chunksGo cols fuel (cs.drop (cols - 1))

def chunks {α : Type} (cols : ℕ) (cs : List α) : List (List α) :=
  chunksGo cols cs.length cs

/-- The wrap greedy packing loop over child footprints
(`children.forEach` at lines 185–195 of the source), with state
`(rows, currentRow, currentRowWidth)`.  Note that the source pushes the
child before testing `currentRow.length > 0` in
`currentRowWidth += childW + (currentRow.length > 0 ? GAP_H : 0)`, so that
increment always adds `GAP_H`. -/
def wrapLoop (cap : ℚ) (rows : List (List (ℚ × ℚ))) (cur : List (ℚ × ℚ)) (crw : ℚ) :
    List (ℚ × ℚ) → List (List (ℚ × ℚ))
  | [] => if cur.isEmpty then rows else rows ++ [cur]
  | c :: cs =>
    if gtSqrt (crw + c.1) cap && !cur.isEmpty then
      wrapLoop cap (rows ++ [cur]) [c] c.1 cs
    else
      wrapLoop cap rows (cur ++ [c]) (crw + c.1 + GAP_H) cs

/-- Split a list into consecutive groups with the given lengths (recovers
the `_rows` groups of a node from its stored row lengths). -/
def splitLens {α : Type} : List ℕ → List α → List (List α)
  | [], _ => []
  | n :: ns, l => l.take n :: splitLens ns (l.drop n)

/-- Mark the last element of a list (`rowIndex === rows.length - 1`). -/
def lastFlags {α : Type} : List α → List (Bool × α)
  | [] => []
  | [a] => [(true, a)]
  | a :: rest => (false, a) :: lastFlags rest

/-! ### The sizing pass (`computeBalancedLayout`, step 1: `root.eachAfter`) -/

/-- `Math.ceil(row.length / 2)`. -/
def midOf (n : ℕ) : ℕ := (n + 1) / 2

/-- Width of a split row of footprints: split at `ceil(n/2)`, pack each half
with the layout's own gap, and force symmetry around the channel
(lines 228–252 of the source). -/
def symmetricRowWidth (gap : ℚ) (row : List (ℚ × ℚ)) : ℚ :=
  let mid := midOf row.length
  let wLeft := packedW gap ((row.take mid).map Prod.fst)
  let wRight := packedW gap ((row.drop mid).map Prod.fst)
  2 * max (wLeft + CHANNEL_WIDTH / 2) (wRight + CHANNEL_WIDTH / 2)

/-- One row's contribution to `maxRowW`: a last row with exactly one child
contributes that child's width, every other row its symmetric split width. -/
def rowContrib (gap : ℚ) (isLast : Bool) (row : List (ℚ × ℚ)) : ℚ :=
  match isLast, row with
  | true, [c] => c.1
  | _, _ => symmetricRowWidth gap row

/-- Contributions of all rows to `maxRowW`, the last row flagged. -/
def rowContribs (gap : ℚ) (rows : List (List (ℚ × ℚ))) : List ℚ :=
  (lastFlags rows).map fun z => rowContrib gap z.1 z.2

/-- `rowH` of one row: max child height, accumulated from 0. -/
def rowHeight (row : List (ℚ × ℚ)) : ℚ := maxList (row.map Prod.snd)

/-- `totalBlockH` for a row list: sum of row heights plus
`(rows.length - 1) * rowGap` (computed in `ℚ`, exactly like the source's
number arithmetic). -/
def totalBlockH (rowGap : ℚ) (rows : List (List (ℚ × ℚ))) : ℚ :=
  (rows.map rowHeight).sum + ((rows.length : ℚ) - 1) * rowGap

/-- `linearW`: the width the children would occupy in a single row. -/
def linearWidth (d : List (ℚ × ℚ)) : ℚ := packedW GAP_H (d.map Prod.fst)

/-- `maxChildH`: the tallest child footprint (accumulated from 0). -/
def maxChildHeight (d : List (ℚ × ℚ)) : ℚ := maxList (d.map Prod.snd)

/-- `currentRatio = linearW / (CARD_HEIGHT + GAP_V + maxChildH)`. -/
def currentRatioOf (d : List (ℚ × ℚ)) : ℚ :=
  linearWidth d / (CARD_HEIGHT + GAP_V + maxChildHeight d)

/-- `area * targetAspectRatio`, the square of the wrap branch's
`idealWidth = Math.sqrt(linearW * maxChildH * targetAspectRatio)`. -/
def wrapCap (r : ℚ) (d : List (ℚ × ℚ)) : ℚ :=
  linearWidth d * maxChildHeight d * r

/-- `cols = Math.ceil(Math.sqrt(count * (CARD_WIDTH/CARD_HEIGHT)))`. -/
def gridCols (n : ℕ) : ℕ := ceilSqrt ((n : ℚ) * (CARD_WIDTH / CARD_HEIGHT))

/-- The per-node body of the sizing pass: given the already-sized children,
decide the layout, build the rows, and compute the footprint
(lines 138–268 of the source). -/
def sizeNode (r : ℚ) (i : ℕ) (cs : List Sized) : Sized :=
  if cs.isEmpty then
    -- LEAF
    .mk i CARD_WIDTH CARD_HEIGHT .leaf [] []
  else
    -- PARENT
    let allLeaves := cs.all fun c => c.children.isEmpty
    let count := cs.length
    let d := Sized.dims cs
    let layoutRows : Layout × List (List (ℚ × ℚ)) :=
      if allLeaves && decide (3 < count) then
        (.grid, chunks (gridCols count) d)
      else
        if decide (r * 1.5 < currentRatioOf d) && decide (3 ≤ count) then
          (.wrap, wrapLoop (wrapCap r d) [] [] 0 d)
        else
          (.row, [])
    let layout := layoutRows.1
    let rows := layoutRows.2
    if layout = .row then
      let totalW := packedW GAP_H (d.map Prod.fst)
      let maxH := maxList (d.map Prod.snd)
      .mk i (max CARD_WIDTH totalW) (CARD_HEIGHT + GAP_V + maxH) layout
        (rows.map List.length) cs
    else
      let gap := if layout = .grid then GRID_GAP else GAP_H
      let rowGap := if layout = .grid then GRID_GAP else GAP_V
      let maxRowW := maxList (rowContribs gap rows)
      .mk i (max CARD_WIDTH maxRowW) (CARD_HEIGHT + GAP_V + totalBlockH rowGap rows)
        layout (rows.map List.length) cs

mutual
/-- The post-order sizing traversal (`root.eachAfter`). -/
def sizeTree (r : ℚ) : OrgTree → Sized
  | .node i cs => sizeNode r i (sizeListAux r cs)

def sizeListAux (r : ℚ) : List OrgTree → List Sized
  | [] => []
  | t :: ts => sizeTree r t :: sizeListAux r ts
end

/-! ### The collapse filter (lines 359–364 of the source) -/

mutual
/-- Applying the collapsed-id set: a node whose id is collapsed loses its
children (`d.children = undefined`); the traversal therefore never reaches
its descendants. -/
def applyCollapse (collapsed : List ℕ) : OrgTree → OrgTree
  | .node i cs =>
    if i ∈ collapsed then .node i [] else .node i (applyCollapseList collapsed cs)

def applyCollapseList (collapsed : List ℕ) : List OrgTree → List OrgTree
  | [] => []
  | t :: ts => applyCollapse collapsed t :: applyCollapseList collapsed ts
end

/-! ### The positioning pass (`positionNode`, lines 272–347 of the source) -/

/-- Pack a list of child footprints left to right from `x0`: each child is
centred in its slot (`childX = currentX + child._w / 2`) and the cursor
advances by `child._w + gap`.  All packed children share the given `y`. -/
def packRow (gap : ℚ) (x0 y : ℚ) : List (ℚ × ℚ) → List (ℚ × ℚ)
  | [] => []
  | (w, _) :: rest => (x0 + w / 2, y) :: packRow gap (x0 + w + gap) y rest

/-- Coordinates assigned to a split grid/wrap row (lines 312–340): the row
is split at `ceil(n/2)`, the left half packed leftward so it ends at
`x - CHANNEL_WIDTH/2`, the right half packed rightward from
`x + CHANNEL_WIDTH/2`. -/
def placeSplitRow (gap x cy : ℚ) (row : List (ℚ × ℚ)) : List (ℚ × ℚ) :=
  let mid := midOf row.length
  let left := row.take mid
  let right := row.drop mid
  let wLeft := packedW gap (left.map Prod.fst)
  packRow gap (x - CHANNEL_WIDTH / 2 - wLeft) cy left ++
    packRow gap (x + CHANNEL_WIDTH / 2) cy right

/-- Coordinates for a list of grid/wrap rows, walking `currentY` down by the
row height plus the layout's row gap after each row; a last row with exactly
one child is centred at the parent's `x`.  Returns one coordinate list per
row. -/
def placeRows (gap vGap x : ℚ) : List (List (ℚ × ℚ)) → ℚ → List (List (ℚ × ℚ))
  | [], _ => []
  | [row], cy =>
    [if row.length = 1 then [(x, cy)] else placeSplitRow gap x cy row]
  | row :: rest, cy =>
    placeSplitRow gap x cy row :: placeRows gap vGap x rest (cy + rowHeight row + vGap)

/-- All child coordinates assigned by `positionNode` to the children of a
node at `(x, y)`, in child order, computed from the node's layout, stored
row lengths and the children's footprints. -/
def placements (l : Layout) (lens : List ℕ) (dims : List (ℚ × ℚ)) (x y : ℚ) :
    List (ℚ × ℚ) :=
  match l with
  | .leaf => []
  | .row =>
    let totalW := packedW GAP_H (dims.map Prod.fst)
    packRow GAP_H (x - totalW / 2) (y + CARD_HEIGHT + GAP_V) dims
  | .grid =>
    (placeRows GRID_GAP GRID_GAP x (splitLens lens dims) (y + CARD_HEIGHT + GAP_V)).flatten
  | .wrap =>
    (placeRows GAP_H GAP_V x (splitLens lens dims) (y + CARD_HEIGHT + GAP_V)).flatten

mutual
/-- The pre-order positioning traversal (`positionNode(node, x, y)`). -/
def positionNode : Sized → ℚ → ℚ → PTree
  | .mk i w h l lens cs, x, y =>
    .mk i x y w h l lens (positionList cs (placements l lens (Sized.dims cs) x y))

/-- Children paired with their assigned coordinates (the two lists always
have equal length for trees produced by the sizing pass). -/
def positionList : List Sized → List (ℚ × ℚ) → List PTree
  | [], _ => []
  | _ :: _, [] => []
  | c :: cs, p :: ps => positionNode c p.1 p.2 :: positionList cs ps
end

/-- The whole engine: collapse filter, sizing pass, then positioning with
the root anchored at `(0, 0)` (`positionNode(root, 0, 0)`). -/
def computeBalancedLayout (r : ℚ) (collapsed : List ℕ) (t : OrgTree) : PTree :=
  positionNode (sizeTree r (applyCollapse collapsed t)) 0 0

/-! ### Node enumerations and bounds (lines 368–384 of the source) -/

mutual
/-- All nodes of a sized tree, root first, in depth-first order. -/
def allSNodes : Sized → List Sized
  | .mk i w h l lens cs => .mk i w h l lens cs :: allSNodesList cs

def allSNodesList : List Sized → List Sized
  | [] => []
  | c :: cs => allSNodes c ++ allSNodesList cs
end

mutual
/-- All nodes of a positioned tree (`root.each` / `root.descendants()`),
root first, in depth-first order. -/
def allPNodes : PTree → List PTree
  | .mk i x y w h l lens cs => .mk i x y w h l lens cs :: allPNodesList cs

def allPNodesList : List PTree → List PTree
  | [] => []
  | c :: cs => allPNodes c ++ allPNodesList cs
end

/-- Minimum of a nonempty list (the source folds `min` starting from
`Infinity`; on the nonempty node list this is the same). -/
def minList1 : List ℚ → ℚ
  | [] => 0
  | a :: l => l.foldl min a

/-- Maximum of a nonempty list (fold of `max` from `-Infinity`). -/
def maxList1 : List ℚ → ℚ
  | [] => 0
  | a :: l => l.foldl max a

/-- `minX` of the bounds scan: least card left edge `d.x - CARD_WIDTH/2`. -/
def boundsMinX (p : PTree) : ℚ :=
  minList1 ((allPNodes p).map fun q => q.x - CARD_WIDTH / 2)

/-- `maxX` of the bounds scan: greatest card right edge `d.x + CARD_WIDTH/2`. -/
def boundsMaxX (p : PTree) : ℚ :=
  maxList1 ((allPNodes p).map fun q => q.x + CARD_WIDTH / 2)

/-- `minY` of the bounds scan: least card top edge `d.y`. -/
def boundsMinY (p : PTree) : ℚ :=
  minList1 ((allPNodes p).map fun q => q.y)

/-- `maxY` of the bounds scan: greatest card bottom edge
`d.y + CARD_HEIGHT`. -/
def boundsMaxY (p : PTree) : ℚ :=
  maxList1 ((allPNodes p).map fun q => q.y + CARD_HEIGHT)

/-! ### Derived row view of a positioned node -/

/-- The rows a positioned node's children were placed in: a Row parent has
all children in one row; a Grid/Wrap parent groups them by the stored row
lengths; a leaf has none. -/
def PTree.rows (p : PTree) : List (List PTree) :=
  match p.layout with
  | .leaf => []
  | .row => [p.children]
  | .grid => splitLens p.rowLens p.children
  | .wrap => splitLens p.rowLens p.children

/-! ### Structured form of the wrap greedy loop (for the analysis)

`wrapLoop` is a single fold; the row structure it produces is captured by
`rowSpan` (the children appended to a row whose accumulated width is `acc`)
and the row-by-row recursions below, proved equal to `wrapLoop` in
`wrapLoop_eq_wrapRows`. -/

/-- Children accumulated into the current row while the overflow test
fails, starting from accumulated width `acc`; returns the added children
and the remaining ones.  The accumulated width grows by `c.1 + GAP_H` per
added child, exactly like `currentRowWidth` in the source. -/
def rowSpan (cap : ℚ) (acc : ℚ) : List (ℚ × ℚ) → List (ℚ × ℚ) × List (ℚ × ℚ)
  | [] => ([], [])
  | c :: cs =>
    if gtSqrt (acc + c.1) cap then ([], c :: cs)
    else
      ((c :: (rowSpan cap (acc + c.1 + GAP_H) cs).1), (rowSpan cap (acc + c.1 + GAP_H) cs).2)

/-- Rows after the first: each row starts with an overflowing child, whose
accumulated width is its bare width (no trailing gap).  Fuel-driven; the
list length is always enough fuel. -/
def rowsGo (cap : ℚ) : ℕ → List (ℚ × ℚ) → List (List (ℚ × ℚ))
  | _, [] => []
  | 0, _ :: _ => []
  | fuel + 1, c :: cs =>
    (c :: (rowSpan cap c.1 cs).1) :: rowsGo cap fuel (rowSpan cap c.1 cs).2

def laterRows (cap : ℚ) (cs : List (ℚ × ℚ)) : List (List (ℚ × ℚ)) :=
  rowsGo cap cs.length cs

/-- The rows chosen by the wrap greedy loop, row by row: the first row's
accumulated width carries a trailing `GAP_H` after every child (the source
pushes, then unconditionally adds the gap), later rows start from the bare
width of their first child. -/
def wrapRows (cap : ℚ) : List (ℚ × ℚ) → List (List (ℚ × ℚ))
  | [] => []
  | c :: cs =>
    (c :: (rowSpan cap (c.1 + GAP_H) cs).1) :: laterRows cap (rowSpan cap (c.1 + GAP_H) cs).2

/-- Modelled from the spec's wording, for comparison with `wrapLoop`:
greedily accumulate children into the current row while adding the next
child would not exceed the ideal row width — that is, the next child is
added to a nonempty current row exactly when the packed width of the row
with the child appended (children's widths plus one `GAP_H` between
consecutive children) does not exceed `idealRowWidth = sqrt cap`; the first
child of an empty row is never rejected. -/
def specWrapRows (cap : ℚ) (cur : List (ℚ × ℚ)) : List (ℚ × ℚ) → List (List (ℚ × ℚ))
  | [] => if cur.isEmpty then [] else [cur]
  | c :: cs =>
    if cur.isEmpty then specWrapRows cap [c] cs
    else if gtSqrt (packedW GAP_H ((cur ++ [c]).map Prod.fst)) cap then
      cur :: specWrapRows cap [c] cs
    else
      specWrapRows cap (cur ++ [c]) cs

/-! ### Concrete example trees (used in witnesses and counterexamples) -/

def leafT (i : ℕ) : OrgTree := .node i []

/-- A root with two leaf children (Scenario A). -/
def treeTwo : OrgTree := .node 0 [leafT 1, leafT 2]

/-- A root with five leaf children (Scenario B). -/
def treeFive : OrgTree :=
  .node 0 [leafT 1, leafT 2, leafT 3, leafT 4, leafT 5]

/-- A root with four children, one of which has a single leaf child: the
children's footprints are fixed (ratio-independent), the parent is not
grid-eligible, and for small enough ratios it wraps. -/
def treeFour : OrgTree :=
  .node 0 [.node 1 [leafT 10], leafT 2, leafT 3, leafT 4]

/-- A root with three children: a grid of ten leaves plus two leaves.  At
`targetAspectRatio = 2` the root wraps with the wide child alone in a
non-final row. -/
def treeWide : OrgTree :=
  .node 0 [.node 1 [leafT 11, leafT 12, leafT 13, leafT 14, leafT 15,
                    leafT 16, leafT 17, leafT 18, leafT 19, leafT 20],
           leafT 2, leafT 3]

/-! ### Structural induction for the nested tree type -/

mutual
/-- Structural induction over `OrgTree` with membership hypotheses for the
child list. -/
def orgTreeInd {P : OrgTree → Prop}
    (step : ∀ i cs, (∀ c ∈ cs, P c) → P (.node i cs)) : ∀ t, P t
  | .node i cs => step i cs (orgTreeIndList step cs)

def orgTreeIndList {P : OrgTree → Prop}
    (step : ∀ i cs, (∀ c ∈ cs, P c) → P (.node i cs)) :
    ∀ ts : List OrgTree, ∀ c ∈ ts, P c
  | [] => fun c hc => absurd hc (List.not_mem_nil c)
  | t :: ts => fun c hc =>
      (List.mem_cons.mp hc).elim (fun h => h ▸ orgTreeInd step t)
        (fun h => orgTreeIndList step ts c h)
end

/-! ## Basic lemmas -/

set_option maxRecDepth 4000

theorem sizeListAux_eq_map (r : ℚ) (ts : List OrgTree) :
    sizeListAux r ts = ts.map (sizeTree r) := by
  induction ts with
  | nil => rfl
  | cons t ts ih => simp [sizeListAux, ih]

theorem applyCollapseList_eq_map (ids : List ℕ) (ts : List OrgTree) :
    applyCollapseList ids ts = ts.map (applyCollapse ids) := by
  induction ts with
  | nil => rfl
  | cons t ts ih => simp [applyCollapseList, ih]

theorem positionList_eq_zipWith (cs : List Sized) (ps : List (ℚ × ℚ)) :
    positionList cs ps = List.zipWith (fun c p => positionNode c p.1 p.2) cs ps := by
  induction cs generalizing ps with
  | nil => simp [positionList]
  | cons c cs ih =>
    cases ps with
    | nil => simp [positionList]
    | cons p ps => simp [positionList, ih]

theorem mem_allPNodesList {q : PTree} {cs : List PTree} :
    q ∈ allPNodesList cs ↔ ∃ c ∈ cs, q ∈ allPNodes c := by
  induction cs with
  | nil => simp [allPNodesList]
  | cons c cs ih => simp [allPNodesList, ih]

theorem mem_allSNodesList {q : Sized} {cs : List Sized} :
    q ∈ allSNodesList cs ↔ ∃ c ∈ cs, q ∈ allSNodes c := by
  induction cs with
  | nil => simp [allSNodesList]
  | cons c cs ih => simp [allSNodesList, ih]

theorem allPNodes_eq (p : PTree) :
    allPNodes p = p :: allPNodesList p.children := by
  cases p with
  | mk i x y w h l lens cs => rfl

theorem allSNodes_eq (s : Sized) :
    allSNodes s = s :: allSNodesList s.children := by
  cases s with
  | mk i w h l lens cs => rfl

theorem self_mem_allPNodes (p : PTree) : p ∈ allPNodes p := by
  rw [allPNodes_eq]; exact List.mem_cons_self p _

/-! Projections of `positionNode`. -/

theorem positionNode_def (s : Sized) (x y : ℚ) :
    positionNode s x y =
      .mk s.id x y s.w s.h s.layout s.rowLens
        (positionList s.children
          (placements s.layout s.rowLens (Sized.dims s.children) x y)) := by
  cases s with
  | mk i w h l lens cs => rfl

theorem positionNode_x (s : Sized) (x y : ℚ) : (positionNode s x y).x = x := by
  cases s; rfl

theorem positionNode_y (s : Sized) (x y : ℚ) : (positionNode s x y).y = y := by
  cases s; rfl

theorem positionNode_w (s : Sized) (x y : ℚ) : (positionNode s x y).w = s.w := by
  cases s; rfl

theorem positionNode_h (s : Sized) (x y : ℚ) : (positionNode s x y).h = s.h := by
  cases s; rfl

theorem positionNode_layout (s : Sized) (x y : ℚ) :
    (positionNode s x y).layout = s.layout := by
  cases s; rfl

theorem positionNode_rowLens (s : Sized) (x y : ℚ) :
    (positionNode s x y).rowLens = s.rowLens := by
  cases s; rfl

theorem positionNode_children (s : Sized) (x y : ℚ) :
    (positionNode s x y).children =
      positionList s.children
        (placements s.layout s.rowLens (Sized.dims s.children) x y) := by
  cases s; rfl

theorem positionNode_id (s : Sized) (x y : ℚ) : (positionNode s x y).id = s.id := by
  cases s; rfl

theorem positionNode_dim (s : Sized) (x y : ℚ) :
    (positionNode s x y).dim = s.dim := by
  cases s; rfl

theorem mem_positionList {p : PTree} {cs : List Sized} {ps : List (ℚ × ℚ)} :
    p ∈ positionList cs ps →
    ∃ z ∈ cs.zip ps, p = positionNode z.1 z.2.1 z.2.2 := by
  induction cs generalizing ps with
  | nil => simp [positionList]
  | cons c cs ih =>
    cases ps with
    | nil => simp [positionList]
    | cons q ps =>
      intro hp
      rcases List.mem_cons.mp hp with h | h
      · exact ⟨(c, q), by simp, h⟩
      · rcases ih h with ⟨z, hz, rfl⟩
        exact ⟨z, List.mem_cons_of_mem _ hz, rfl⟩

theorem positionList_length {cs : List Sized} {ps : List (ℚ × ℚ)}
    (h : ps.length = cs.length) :
    (positionList cs ps).length = cs.length := by
  rw [positionList_eq_zipWith]
  simp [h]

/-! ## Fold and packing arithmetic -/

theorem le_foldl_max (b : ℚ) (l : List ℚ) : b ≤ l.foldl max b := by
  induction l generalizing b with
  | nil => simp
  | cons a l ih => exact le_trans (le_max_left b a) (ih (max b a))

theorem foldl_max_mono {b c : ℚ} (l : List ℚ) (h : b ≤ c) :
    l.foldl max b ≤ l.foldl max c := by
  induction l generalizing b c with
  | nil => simpa
  | cons a l ih => exact ih (max_le_max h le_rfl)

theorem maxList_nonneg (l : List ℚ) : 0 ≤ maxList l := le_foldl_max 0 l

theorem le_maxList {a : ℚ} {l : List ℚ} (h : a ∈ l) : a ≤ maxList l := by
  induction l with
  | nil => cases h
  | cons b l ih =>
    rcases List.mem_cons.mp h with rfl | h
    · exact le_trans (le_max_right 0 a) (le_foldl_max _ l)
    · exact le_trans (ih h) (foldl_max_mono l (le_max_left 0 b))

theorem maxList_le_cons (a : ℚ) (l : List ℚ) : maxList l ≤ maxList (a :: l) := by
  unfold maxList
  exact foldl_max_mono l (le_max_left 0 a)

theorem packedW_cons (gap w : ℚ) (ws : List ℚ) :
    packedW gap (w :: ws) = w + if ws.isEmpty then 0 else gap + packedW gap ws := by
  cases ws with
  | nil => simp [packedW]
  | cons v ws => simp [packedW]; ring

theorem packedW_nonneg {gap : ℚ} (hg : 0 ≤ gap) {ws : List ℚ}
    (hw : ∀ w ∈ ws, 0 ≤ w) : 0 ≤ packedW gap ws := by
  induction ws with
  | nil => simp [packedW]
  | cons w ws ih =>
    rw [packedW_cons]
    have hw0 : 0 ≤ w := hw w (List.mem_cons_self _ _)
    cases ws with
    | nil => simpa
    | cons v vs =>
      have h2 := ih fun u hu => hw u (List.mem_cons_of_mem _ hu)
      simp only [List.isEmpty_cons, if_false, Bool.false_eq_true]
      linarith

/-! ## The square-root encodings -/

theorem gtSqrt_iff {x c : ℚ} (hc : 0 ≤ c) :
    gtSqrt x c = true ↔ Real.sqrt (c : ℝ) < (x : ℝ) := by
  unfold gtSqrt
  rw [decide_eq_true_iff]
  constructor
  · rintro ⟨hx, hlt⟩
    have hx2 : (c : ℝ) < (x : ℝ) ^ 2 := by exact_mod_cast hlt
    have hxpos : (0 : ℝ) < (x : ℝ) := by
      rcases lt_or_eq_of_le (show (0 : ℝ) ≤ (x : ℝ) by exact_mod_cast hx) with h | h
      · exact h
      · exfalso
        have hc0 : (0 : ℝ) ≤ (c : ℝ) := by exact_mod_cast hc
        nlinarith
    exact (Real.sqrt_lt' hxpos).mpr hx2
  · intro h
    have hx : (0 : ℝ) ≤ (x : ℝ) := le_trans (Real.sqrt_nonneg _) (le_of_lt h)
    have hxpos : (0 : ℝ) < (x : ℝ) := by
      rcases lt_or_eq_of_le hx with h1 | h1
      · exact h1
      · exact absurd (h1 ▸ h) (by simp [Real.sqrt_nonneg])
    have := (Real.sqrt_lt' hxpos).mp h
    exact ⟨by exact_mod_cast hx, by exact_mod_cast this⟩

theorem ceilSqrtGo_spec (q : ℚ) (fuel acc : ℕ)
    (hbase : ∀ m < acc, ¬ q ≤ (m : ℚ) ^ 2)
    (hfuel : q ≤ ((acc + fuel : ℕ) : ℚ) ^ 2) :
    q ≤ ((ceilSqrtGo q fuel acc : ℕ) : ℚ) ^ 2 ∧
      ∀ m < ceilSqrtGo q fuel acc, ¬ q ≤ (m : ℚ) ^ 2 := by
  induction fuel generalizing acc with
  | zero =>
    simp only [ceilSqrtGo]
    exact ⟨by simpa using hfuel, hbase⟩
  | succ fuel ih =>
    rw [ceilSqrtGo]
    by_cases h : q ≤ (acc : ℚ) ^ 2
    · rw [if_pos h]
      exact ⟨h, hbase⟩
    · rw [if_neg h]
      refine ih (acc + 1) ?_ ?_
      · intro m hm
        rcases Nat.lt_succ_iff_lt_or_eq.mp hm with hm | rfl
        · exact hbase m hm
        · exact h
      · have heq : acc + 1 + fuel = acc + (fuel + 1) := by omega
        rw [heq]; exact hfuel

theorem ceilSqrt_fuel_ok (q : ℚ) : q ≤ ((0 + (⌈q⌉₊ + 1) : ℕ) : ℚ) ^ 2 := by
  have h1 : q ≤ (⌈q⌉₊ : ℚ) := Nat.le_ceil q
  have h2 : ⌈q⌉₊ ≤ (⌈q⌉₊ + 1) ^ 2 :=
    le_trans (Nat.le_succ _) (Nat.le_self_pow two_ne_zero _)
  have h3 : q ≤ ((⌈q⌉₊ + 1 : ℕ) : ℚ) ^ 2 := le_trans h1 (by exact_mod_cast h2)
  simpa using h3

theorem ceilSqrt_le_sq (q : ℚ) : q ≤ ((ceilSqrt q : ℕ) : ℚ) ^ 2 :=
  (ceilSqrtGo_spec q (⌈q⌉₊ + 1) 0 (by omega) (ceilSqrt_fuel_ok q)).1

theorem ceilSqrt_not_lt (q : ℚ) : ∀ m < ceilSqrt q, ¬ q ≤ (m : ℚ) ^ 2 :=
  (ceilSqrtGo_spec q (⌈q⌉₊ + 1) 0 (by omega) (ceilSqrt_fuel_ok q)).2

theorem ceilSqrt_min {q : ℚ} {m : ℕ} (h : q ≤ (m : ℚ) ^ 2) : ceilSqrt q ≤ m := by
  by_contra hlt
  exact ceilSqrt_not_lt q m (by omega) h

theorem ceilSqrt_pos {q : ℚ} (h : 1 ≤ q) : 1 ≤ ceilSqrt q := by
  by_contra h0
  have hz : ceilSqrt q = 0 := by omega
  have hle := ceilSqrt_le_sq q
  rw [hz] at hle
  norm_num at hle
  linarith

/-- The grid column count agrees with `⌈Real.sqrt q⌉₊`. -/
theorem ceilSqrt_eq_ceil_sqrt {q : ℚ} (hq : 0 ≤ q) :
    ceilSqrt q = ⌈Real.sqrt (q : ℝ)⌉₊ := by
  apply le_antisymm
  · apply ceilSqrt_min
    have h2 : (q : ℝ) ≤ ((⌈Real.sqrt (q : ℝ)⌉₊ : ℕ) : ℝ) ^ 2 := by
      have h1 : Real.sqrt (q : ℝ) ≤ (⌈Real.sqrt (q : ℝ)⌉₊ : ℝ) := Nat.le_ceil _
      have hs := Real.sq_sqrt (show (0:ℝ) ≤ (q : ℝ) by exact_mod_cast hq)
      nlinarith [Real.sqrt_nonneg (q : ℝ)]
    exact_mod_cast h2
  · rw [Nat.ceil_le]
    have h2 : (q : ℝ) ≤ ((ceilSqrt q : ℕ) : ℝ) ^ 2 := by exact_mod_cast ceilSqrt_le_sq q
    calc Real.sqrt (q : ℝ) ≤ Real.sqrt (((ceilSqrt q : ℕ) : ℝ) ^ 2) := Real.sqrt_le_sqrt h2
      _ = ((ceilSqrt q : ℕ) : ℝ) := Real.sqrt_sq (by positivity)

/-! ## Case analysis of the sizing decision -/

theorem sizeNode_nil (r : ℚ) (i : ℕ) :
    sizeNode r i [] = .mk i CARD_WIDTH CARD_HEIGHT .leaf [] [] := rfl

theorem gridEligible_iff (cs : List Sized) :
    ((cs.all fun c => c.children.isEmpty) && decide (3 < cs.length)) = true ↔
      (∀ c ∈ cs, c.children = []) ∧ 3 < cs.length := by
  simp [List.all_eq_true, List.isEmpty_iff]

theorem sizeNode_grid {r : ℚ} {i : ℕ} {cs : List Sized} (hne : cs ≠ [])
    (hall : ∀ c ∈ cs, c.children = []) (hcnt : 3 < cs.length) :
    sizeNode r i cs =
      .mk i
        (max CARD_WIDTH
          (maxList (rowContribs GRID_GAP (chunks (gridCols cs.length) (Sized.dims cs)))))
        (CARD_HEIGHT + GAP_V +
          totalBlockH GRID_GAP (chunks (gridCols cs.length) (Sized.dims cs)))
        .grid ((chunks (gridCols cs.length) (Sized.dims cs)).map List.length) cs := by
  have h1 : cs.isEmpty = false := by simpa [List.isEmpty_iff] using hne
  have h2 : ((cs.all fun c => c.children.isEmpty) && decide (3 < cs.length)) = true :=
    (gridEligible_iff cs).mpr ⟨hall, hcnt⟩
  simp [sizeNode, h1, h2]

theorem sizeNode_wrap {r : ℚ} {i : ℕ} {cs : List Sized} (hne : cs ≠ [])
    (hng : ((cs.all fun c => c.children.isEmpty) && decide (3 < cs.length)) = false)
    (hra : r * 1.5 < currentRatioOf (Sized.dims cs)) (hcnt : 3 ≤ cs.length) :
    sizeNode r i cs =
      .mk i
        (max CARD_WIDTH
          (maxList (rowContribs GAP_H (wrapLoop (wrapCap r (Sized.dims cs)) [] [] 0 (Sized.dims cs)))))
        (CARD_HEIGHT + GAP_V +
          totalBlockH GAP_V (wrapLoop (wrapCap r (Sized.dims cs)) [] [] 0 (Sized.dims cs)))
        .wrap ((wrapLoop (wrapCap r (Sized.dims cs)) [] [] 0 (Sized.dims cs)).map List.length)
        cs := by
  have h1 : cs.isEmpty = false := by simpa [List.isEmpty_iff] using hne
  simp [sizeNode, h1, hng, hra, hcnt]

theorem sizeNode_row {r : ℚ} {i : ℕ} {cs : List Sized} (hne : cs ≠ [])
    (hng : ((cs.all fun c => c.children.isEmpty) && decide (3 < cs.length)) = false)
    (hnw : ¬(r * 1.5 < currentRatioOf (Sized.dims cs) ∧ 3 ≤ cs.length)) :
    sizeNode r i cs =
      .mk i (max CARD_WIDTH (packedW GAP_H ((Sized.dims cs).map Prod.fst)))
        (CARD_HEIGHT + GAP_V + maxList ((Sized.dims cs).map Prod.snd)) .row [] cs := by
  have h1 : cs.isEmpty = false := by simpa [List.isEmpty_iff] using hne
  have h3 : (decide (r * 1.5 < currentRatioOf (Sized.dims cs)) &&
      decide (3 ≤ cs.length)) = false := by
    rcases Decidable.not_and_iff_or_not.mp hnw with h | h <;> simp [h]
  simp [sizeNode, h1, hng, h3]

/-! ## Row bookkeeping: coverage and lengths -/

theorem chunksGo_flatten {α : Type} {cols fuel : ℕ} {cs : List α}
    (hf : cs.length ≤ fuel) :
    (chunksGo cols fuel cs).flatten = cs := by
  induction fuel generalizing cs with
  | zero =>
    cases cs with
    | nil => rfl
    | cons c cs => simp at hf
  | succ fuel ih =>
    cases cs with
    | nil => rfl
    | cons c cs =>
      rw [chunksGo]
      simp only [List.flatten_cons]
      rw [ih (by simp only [List.length_drop]; simp at hf; omega)]
      simp [List.take_append_drop]

theorem chunks_flatten {α : Type} {cols : ℕ} (cs : List α) :
    (chunks cols cs).flatten = cs :=
  chunksGo_flatten le_rfl

theorem wrapLoop_flatten (cap : ℚ) (rows : List (List (ℚ × ℚ)))
    (cur : List (ℚ × ℚ)) (crw : ℚ) (cs : List (ℚ × ℚ)) :
    (wrapLoop cap rows cur crw cs).flatten = rows.flatten ++ cur ++ cs := by
  induction cs generalizing rows cur crw with
  | nil =>
    rw [wrapLoop]
    by_cases h : cur.isEmpty
    · rw [if_pos h, List.isEmpty_iff.mp h]; simp
    · rw [if_neg h]; simp
  | cons c cs ih =>
    rw [wrapLoop]
    by_cases h : (gtSqrt (crw + c.1) cap && !cur.isEmpty) = true
    · rw [if_pos h, ih]; simp
    · rw [if_neg h, ih]; simp

theorem splitLens_map_length {α : Type} (rows : List (List α)) :
    splitLens (rows.map List.length) rows.flatten = rows := by
  induction rows with
  | nil => rfl
  | cons row rest ih =>
    simp only [List.map_cons, List.flatten_cons, splitLens,
      List.take_left, List.drop_left]
    rw [ih]

theorem splitLens_map_length_map {α β : Type} (rows : List (List α)) (f : α → β) :
    splitLens (rows.map List.length) ((rows.flatten).map f) = rows.map (List.map f) := by
  have h1 : (rows.flatten).map f = (rows.map (List.map f)).flatten := by
    simp [List.map_flatten]
  have h2 : (rows.map (List.map f)).map List.length = rows.map List.length := by
    simp [Function.comp]
  rw [h1, ← h2, splitLens_map_length]

theorem packRow_length (gap x0 y : ℚ) (l : List (ℚ × ℚ)) :
    (packRow gap x0 y l).length = l.length := by
  induction l generalizing x0 with
  | nil => rfl
  | cons d rest ih =>
    cases d with
    | mk w h => simp [packRow, ih]

theorem placeSplitRow_length (gap x cy : ℚ) (row : List (ℚ × ℚ)) :
    (placeSplitRow gap x cy row).length = row.length := by
  simp [placeSplitRow, packRow_length]
  omega

theorem placeRows_lengths (gap vGap x : ℚ) (rows : List (List (ℚ × ℚ))) (cy : ℚ) :
    (placeRows gap vGap x rows cy).map List.length = rows.map List.length := by
  induction rows generalizing cy with
  | nil => rfl
  | cons row rest ih =>
    cases rest with
    | nil =>
      by_cases h : row.length = 1
      · simp [placeRows, h]
      · simp [placeRows, h, placeSplitRow_length]
    | cons b rest2 =>
      simp only [placeRows, List.map_cons, placeSplitRow_length]
      rw [ih]
      simp
/-! ## Structural invariants of sized nodes -/

/-- Exhaustive case split on the sizing decision for a nonempty child
list, phrased through the three parent destructor lemmas. -/
theorem sizeNode_three_cases (r : ℚ) (i : ℕ) (cs : List Sized) (hne : cs ≠ []) :
    ((∀ c ∈ cs, c.children = []) ∧ 3 < cs.length ∧
      sizeNode r i cs =
        .mk i
          (max CARD_WIDTH
            (maxList (rowContribs GRID_GAP (chunks (gridCols cs.length) (Sized.dims cs)))))
          (CARD_HEIGHT + GAP_V +
            totalBlockH GRID_GAP (chunks (gridCols cs.length) (Sized.dims cs)))
          .grid ((chunks (gridCols cs.length) (Sized.dims cs)).map List.length) cs) ∨
    (¬((∀ c ∈ cs, c.children = []) ∧ 3 < cs.length) ∧
      r * 1.5 < currentRatioOf (Sized.dims cs) ∧ 3 ≤ cs.length ∧
      sizeNode r i cs =
        .mk i
          (max CARD_WIDTH
            (maxList (rowContribs GAP_H
              (wrapLoop (wrapCap r (Sized.dims cs)) [] [] 0 (Sized.dims cs)))))
          (CARD_HEIGHT + GAP_V +
            totalBlockH GAP_V (wrapLoop (wrapCap r (Sized.dims cs)) [] [] 0 (Sized.dims cs)))
          .wrap
          ((wrapLoop (wrapCap r (Sized.dims cs)) [] [] 0 (Sized.dims cs)).map List.length)
          cs) ∨
    (¬((∀ c ∈ cs, c.children = []) ∧ 3 < cs.length) ∧
      ¬(r * 1.5 < currentRatioOf (Sized.dims cs) ∧ 3 ≤ cs.length) ∧
      sizeNode r i cs =
        .mk i (max CARD_WIDTH (packedW GAP_H ((Sized.dims cs).map Prod.fst)))
          (CARD_HEIGHT + GAP_V + maxList ((Sized.dims cs).map Prod.snd)) .row [] cs) := by
  by_cases hg : (∀ c ∈ cs, c.children = []) ∧ 3 < cs.length
  · exact Or.inl ⟨hg.1, hg.2, sizeNode_grid hne hg.1 hg.2⟩
  · have hng : ((cs.all fun c => c.children.isEmpty) && decide (3 < cs.length)) = false := by
      rcases Bool.eq_false_or_eq_true ((cs.all fun c => c.children.isEmpty) &&
          decide (3 < cs.length)) with h | h
      · exact absurd ((gridEligible_iff cs).mp h) hg
      · exact h
    by_cases hw : r * 1.5 < currentRatioOf (Sized.dims cs) ∧ 3 ≤ cs.length
    · exact Or.inr (Or.inl ⟨hg, hw.1, hw.2, sizeNode_wrap hne hng hw.1 hw.2⟩)
    · exact Or.inr (Or.inr ⟨hg, hw, sizeNode_row hne hng hw⟩)

theorem sizeNode_children (r : ℚ) (i : ℕ) (cs : List Sized) :
    (sizeNode r i cs).children = cs := by
  rcases eq_or_ne cs [] with rfl | hne
  · rfl
  · rcases sizeNode_three_cases r i cs hne with ⟨_, _, h⟩ | ⟨_, _, _, h⟩ | ⟨_, _, h⟩ <;>
      rw [h] <;> rfl

theorem sizeNode_id (r : ℚ) (i : ℕ) (cs : List Sized) :
    (sizeNode r i cs).id = i := by
  rcases eq_or_ne cs [] with rfl | hne
  · rfl
  · rcases sizeNode_three_cases r i cs hne with ⟨_, _, h⟩ | ⟨_, _, _, h⟩ | ⟨_, _, h⟩ <;>
      rw [h] <;> rfl

theorem sizeNode_w_ge (r : ℚ) (i : ℕ) (cs : List Sized) :
    CARD_WIDTH ≤ (sizeNode r i cs).w := by
  rcases eq_or_ne cs [] with rfl | hne
  · exact le_rfl
  · rcases sizeNode_three_cases r i cs hne with ⟨_, _, h⟩ | ⟨_, _, _, h⟩ | ⟨_, _, h⟩ <;>
      rw [h] <;> simp [Sized.w]

theorem rowHeight_nonneg (row : List (ℚ × ℚ)) : 0 ≤ rowHeight row :=
  maxList_nonneg _

theorem totalBlockH_ge (rowGap : ℚ) (hg : 0 ≤ rowGap) (rows : List (List (ℚ × ℚ)))
    (hrows : rows ≠ []) : 0 ≤ totalBlockH rowGap rows := by
  have h1 : 0 ≤ (rows.map rowHeight).sum := by
    apply List.sum_nonneg
    intro a ha
    rcases List.mem_map.mp ha with ⟨rr, _, rfl⟩
    exact rowHeight_nonneg rr
  have h2 : (0 : ℚ) ≤ ((rows.length : ℚ) - 1) * rowGap := by
    apply mul_nonneg _ hg
    have : 1 ≤ rows.length := List.length_pos.mpr hrows
    have : (1 : ℚ) ≤ (rows.length : ℚ) := by exact_mod_cast this
    linarith
  unfold totalBlockH
  linarith

theorem sizeNode_h_ge (r : ℚ) (i : ℕ) (cs : List Sized) :
    CARD_HEIGHT ≤ (sizeNode r i cs).h := by
  rcases eq_or_ne cs [] with rfl | hne
  · exact le_rfl
  · rcases sizeNode_three_cases r i cs hne with ⟨_, _, h⟩ | ⟨_, _, _, h⟩ | ⟨_, _, h⟩ <;> rw [h]
    · -- grid: rows may in principle be empty; both cases keep the height above CARD_HEIGHT
      rcases eq_or_ne (chunks (gridCols cs.length) (Sized.dims cs)) [] with hr | hrne
      · simp [Sized.h, hr, totalBlockH, GRID_GAP, GAP_V, CARD_HEIGHT]
        norm_num
      · have := totalBlockH_ge GRID_GAP (by norm_num [GRID_GAP]) _ hrne
        simp only [Sized.h]
        have hGV : (0 : ℚ) ≤ GAP_V := by norm_num [GAP_V]
        linarith
    · rcases eq_or_ne (wrapLoop (wrapCap r (Sized.dims cs)) [] [] 0 (Sized.dims cs)) []
          with hr | hrne
      · simp [Sized.h, hr, totalBlockH, GAP_V, CARD_HEIGHT]
      · have := totalBlockH_ge GAP_V (by norm_num [GAP_V]) _ hrne
        simp only [Sized.h]
        have hGV : (0 : ℚ) ≤ GAP_V := by norm_num [GAP_V]
        linarith
    · simp only [Sized.h]
      have := maxList_nonneg ((Sized.dims cs).map Prod.snd)
      have hGV : (0 : ℚ) ≤ GAP_V := by norm_num [GAP_V]
      linarith

/-! ## Geometry of `packRow` -/

theorem packRow_nil (gap x0 y : ℚ) : packRow gap x0 y [] = [] := rfl

theorem packRow_cons (gap x0 y : ℚ) (d : ℚ × ℚ) (rest : List (ℚ × ℚ)) :
    packRow gap x0 y (d :: rest) =
      (x0 + d.1 / 2, y) :: packRow gap (x0 + d.1 + gap) y rest := by
  cases d; rfl

theorem packRow_zip_bounds {gap : ℚ} (x0 y : ℚ) {l : List (ℚ × ℚ)} (hg : 0 ≤ gap)
    (hw : ∀ d ∈ l, 0 ≤ d.1) :
    ∀ z ∈ l.zip (packRow gap x0 y l),
      x0 ≤ z.2.1 - z.1.1 / 2 ∧ z.2.1 + z.1.1 / 2 ≤ x0 + packedW gap (l.map Prod.fst) ∧
      z.2.2 = y := by
  induction l generalizing x0 with
  | nil => intro z hz; simp [packRow] at hz
  | cons d rest ih =>
    intro z hz
    rw [packRow_cons] at hz
    have hd : 0 ≤ d.1 := hw d (List.mem_cons_self _ _)
    cases rest with
    | nil =>
      rcases List.mem_cons.mp hz with rfl | hz
      · refine ⟨by simp, by simp [packedW]; linarith, rfl⟩
      · simp at hz
    | cons e rest2 =>
      have hpe : packedW gap ((d :: e :: rest2).map Prod.fst) =
          d.1 + gap + packedW gap ((e :: rest2).map Prod.fst) := by
        simp [packedW]
      have hrest0 : 0 ≤ packedW gap ((e :: rest2).map Prod.fst) :=
        packedW_nonneg hg (by
          intro u hu
          rcases List.mem_map.mp hu with ⟨v, hv, rfl⟩
          exact hw v (List.mem_cons_of_mem _ hv))
      rcases List.mem_cons.mp hz with rfl | hz
      · refine ⟨by simp, ?_, rfl⟩
        rw [hpe]
        simp only
        linarith
      · have h := ih (x0 + d.1 + gap) (fun u hu => hw u (List.mem_cons_of_mem _ hu)) z hz
        refine ⟨by linarith [h.1], ?_, h.2.2⟩
        rw [hpe]
        linarith [h.2.1]

theorem packRow_zip_pairwise {gap : ℚ} (x0 y : ℚ) {l : List (ℚ × ℚ)} (hg : 0 ≤ gap)
    (hw : ∀ d ∈ l, 0 ≤ d.1) :
    (l.zip (packRow gap x0 y l)).Pairwise
      (fun a b => a.2.1 + a.1.1 / 2 + gap ≤ b.2.1 - b.1.1 / 2) := by
  induction l generalizing x0 with
  | nil => simp [packRow]
  | cons d rest ih =>
    rw [packRow_cons]
    rw [List.zip_cons_cons, List.pairwise_cons]
    constructor
    · intro b hb
      have h := packRow_zip_bounds (x0 + d.1 + gap) y hg
        (fun u hu => hw u (List.mem_cons_of_mem _ hu)) b hb
      simp only
      linarith [h.1]
    · exact ih (x0 + d.1 + gap) fun u hu => hw u (List.mem_cons_of_mem _ hu)

theorem packRow_zip_chain (gap x0 y : ℚ) (l : List (ℚ × ℚ)) :
    List.Chain' (fun a b => b.2.1 = a.2.1 + a.1.1 / 2 + gap + b.1.1 / 2)
      (l.zip (packRow gap x0 y l)) := by
  induction l generalizing x0 with
  | nil => simp [packRow]
  | cons d rest ih =>
    cases rest with
    | nil => simp [packRow_cons, packRow]
    | cons e rest2 =>
      rw [packRow_cons, packRow_cons, List.zip_cons_cons, List.zip_cons_cons,
        List.chain'_cons]
      constructor
      · simp only
        ring
      · have := ih (x0 + d.1 + gap)
        rw [packRow_cons, List.zip_cons_cons] at this
        exact this

theorem packRow_getLast {l : List (ℚ × ℚ)} (gap x0 y : ℚ) (hne : l ≠ []) :
    ∃ d p, l.getLast? = some d ∧ (packRow gap x0 y l).getLast? = some p ∧
      p.1 + d.1 / 2 = x0 + packedW gap (l.map Prod.fst) ∧ p.2 = y := by
  induction l generalizing x0 with
  | nil => simp at hne
  | cons d rest ih =>
    cases rest with
    | nil =>
      refine ⟨d, (x0 + d.1 / 2, y), rfl, ?_, by simp [packedW]; ring, rfl⟩
      rw [packRow_cons, packRow_nil]
      rfl
    | cons e rest2 =>
      obtain ⟨dl, pl, hdl, hpl, hsum, hy⟩ := ih (x0 + d.1 + gap) (by simp)
      refine ⟨dl, pl, ?_, ?_, ?_, hy⟩
      · rw [List.getLast?_cons_cons]; exact hdl
      · rw [packRow_cons, packRow_cons]
        rw [packRow_cons] at hpl
        rw [List.getLast?_cons_cons]
        exact hpl
      · rw [show packedW gap ((d :: e :: rest2).map Prod.fst) =
          d.1 + gap + packedW gap ((e :: rest2).map Prod.fst) by simp [packedW]]
        linarith

theorem packRow_head (gap x0 y : ℚ) (d : ℚ × ℚ) (rest : List (ℚ × ℚ)) :
    (packRow gap x0 y (d :: rest)).head? = some (x0 + d.1 / 2, y) := by
  rw [packRow_cons]; rfl

/-! ## Geometry of split rows -/

theorem placeSplitRow_eq (gap x cy : ℚ) (row : List (ℚ × ℚ)) :
    placeSplitRow gap x cy row =
      packRow gap
        (x - CHANNEL_WIDTH / 2 -
          packedW gap ((row.take (midOf row.length)).map Prod.fst)) cy
        (row.take (midOf row.length)) ++
      packRow gap (x + CHANNEL_WIDTH / 2) cy (row.drop (midOf row.length)) := rfl

theorem symmetricRowWidth_eq (gap : ℚ) (row : List (ℚ × ℚ)) :
    symmetricRowWidth gap row =
      2 * max (packedW gap ((row.take (midOf row.length)).map Prod.fst) + CHANNEL_WIDTH / 2)
        (packedW gap ((row.drop (midOf row.length)).map Prod.fst) + CHANNEL_WIDTH / 2) := rfl

theorem zip_split_mem {α β : Type} {row : List α} {l1 l2 : List β} {n : ℕ}
    (h1 : (row.take n).length = l1.length) {z : α × β}
    (hz : z ∈ row.zip (l1 ++ l2)) :
    z ∈ (row.take n).zip l1 ∨ z ∈ (row.drop n).zip l2 := by
  have hsplit : row.zip (l1 ++ l2) = (row.take n).zip l1 ++ (row.drop n).zip l2 := by
    conv_lhs => rw [← List.take_append_drop n row]
    exact List.zip_append h1
  rw [hsplit] at hz
  exact List.mem_append.mp hz

theorem placeSplitRow_zip_bounds {gap : ℚ} (x cy : ℚ) {row : List (ℚ × ℚ)}
    (hg : 0 ≤ gap) (hw : ∀ d ∈ row, 0 ≤ d.1) :
    ∀ z ∈ row.zip (placeSplitRow gap x cy row),
      x - symmetricRowWidth gap row / 2 ≤ z.2.1 - z.1.1 / 2 ∧
      z.2.1 + z.1.1 / 2 ≤ x + symmetricRowWidth gap row / 2 ∧ z.2.2 = cy := by
  intro z hz
  set mid := midOf row.length with hmid
  set left := row.take mid with hleft
  set right := row.drop mid with hright
  have hwL : ∀ d ∈ left, 0 ≤ d.1 := fun d hd => hw d (List.mem_of_mem_take hd)
  have hwR : ∀ d ∈ right, 0 ≤ d.1 := fun d hd => hw d (List.mem_of_mem_drop hd)
  have hL0 : 0 ≤ packedW gap (left.map Prod.fst) :=
    packedW_nonneg hg (by
      intro u hu; rcases List.mem_map.mp hu with ⟨v, hv, rfl⟩; exact hwL v hv)
  have hR0 : 0 ≤ packedW gap (right.map Prod.fst) :=
    packedW_nonneg hg (by
      intro u hu; rcases List.mem_map.mp hu with ⟨v, hv, rfl⟩; exact hwR v hv)
  have hCW : (CHANNEL_WIDTH : ℚ) = 30 := rfl
  have hmaxL : packedW gap (left.map Prod.fst) + CHANNEL_WIDTH / 2 ≤
      symmetricRowWidth gap row / 2 := by
    rw [symmetricRowWidth_eq]
    rw [← hmid, ← hleft, ← hright]
    have := le_max_left (packedW gap (left.map Prod.fst) + CHANNEL_WIDTH / 2)
      (packedW gap (right.map Prod.fst) + CHANNEL_WIDTH / 2)
    linarith
  have hmaxR : packedW gap (right.map Prod.fst) + CHANNEL_WIDTH / 2 ≤
      symmetricRowWidth gap row / 2 := by
    rw [symmetricRowWidth_eq]
    rw [← hmid, ← hleft, ← hright]
    have := le_max_right (packedW gap (left.map Prod.fst) + CHANNEL_WIDTH / 2)
      (packedW gap (right.map Prod.fst) + CHANNEL_WIDTH / 2)
    linarith
  rw [placeSplitRow_eq, ← hmid, ← hleft, ← hright] at hz
  rcases zip_split_mem (by rw [packRow_length]) hz with hzl | hzr
  · have h := packRow_zip_bounds
      (x - CHANNEL_WIDTH / 2 - packedW gap (left.map Prod.fst)) cy hg hwL z hzl
    refine ⟨by linarith [h.1], ?_, h.2.2⟩
    have h2 := h.2.1
    rw [hCW] at *
    linarith
  · have h := packRow_zip_bounds (x + CHANNEL_WIDTH / 2) cy hg hwR z hzr
    refine ⟨by rw [hCW] at *; linarith [h.1], ?_, h.2.2⟩
    have h2 := h.2.1
    linarith

theorem placeSplitRow_zip_pairwise {gap : ℚ} (x cy : ℚ) {row : List (ℚ × ℚ)}
    (hg : GRID_GAP ≤ gap) (hw : ∀ d ∈ row, 0 ≤ d.1) :
    (row.zip (placeSplitRow gap x cy row)).Pairwise
      (fun a b => a.2.1 + a.1.1 / 2 + GRID_GAP ≤ b.2.1 - b.1.1 / 2) := by
  have hg0 : (0 : ℚ) ≤ gap := le_trans (by norm_num [GRID_GAP]) hg
  set mid := midOf row.length with hmid
  set left := row.take mid with hleft
  set right := row.drop mid with hright
  have hwL : ∀ d ∈ left, 0 ≤ d.1 := fun d hd => hw d (List.mem_of_mem_take hd)
  have hwR : ∀ d ∈ right, 0 ≤ d.1 := fun d hd => hw d (List.mem_of_mem_drop hd)
  have hsplit : row.zip (placeSplitRow gap x cy row) =
      left.zip (packRow gap (x - CHANNEL_WIDTH / 2 - packedW gap (left.map Prod.fst)) cy left)
      ++ right.zip (packRow gap (x + CHANNEL_WIDTH / 2) cy right) := by
    rw [placeSplitRow_eq, ← hmid, ← hleft, ← hright]
    conv_lhs => rw [← List.take_append_drop mid row]
    rw [← hleft, ← hright]
    exact List.zip_append (by rw [packRow_length])
  rw [hsplit]
  rw [List.pairwise_append]
  refine ⟨?_, ?_, ?_⟩
  · exact (packRow_zip_pairwise _ cy hg0 hwL).imp (by
      intro a b hab
      linarith)
  · exact (packRow_zip_pairwise _ cy hg0 hwR).imp (by
      intro a b hab
      linarith)
  · intro a ha b hb
    have hA := packRow_zip_bounds
      (x - CHANNEL_WIDTH / 2 - packedW gap (left.map Prod.fst)) cy hg0 hwL a ha
    have hB := packRow_zip_bounds (x + CHANNEL_WIDTH / 2) cy hg0 hwR b hb
    have h1 := hA.2.1
    have h2 := hB.1
    have hCW : (CHANNEL_WIDTH : ℚ) = 30 := rfl
    have hGG : (GRID_GAP : ℚ) = 12 := rfl
    rw [hCW] at h1 h2
    rw [hGG]
    linarith

/-! ## Geometry of the row stack -/

theorem lastFlags_single {α : Type} (a : α) : lastFlags [a] = [(true, a)] := rfl

theorem lastFlags_cons₂ {α : Type} (a b : α) (l : List α) :
    lastFlags (a :: b :: l) = (false, a) :: lastFlags (b :: l) := rfl

theorem rowContrib_false (gap : ℚ) (row : List (ℚ × ℚ)) :
    rowContrib gap false row = symmetricRowWidth gap row := by
  cases row with
  | nil => rfl
  | cons d rest => cases rest <;> rfl

theorem rowContrib_true_single (gap : ℚ) (d : ℚ × ℚ) :
    rowContrib gap true [d] = d.1 := rfl

theorem rowContrib_true_ne_single {gap : ℚ} {row : List (ℚ × ℚ)}
    (h : row.length ≠ 1) : rowContrib gap true row = symmetricRowWidth gap row := by
  cases row with
  | nil => rfl
  | cons d rest =>
    cases rest with
    | nil => simp at h
    | cons e rest2 => rfl

theorem rowContribs_single (gap : ℚ) (row : List (ℚ × ℚ)) :
    rowContribs gap [row] = [rowContrib gap true row] := rfl

theorem rowContribs_cons₂ (gap : ℚ) (row b : List (ℚ × ℚ)) (rest : List (List (ℚ × ℚ))) :
    rowContribs gap (row :: b :: rest) =
      rowContrib gap false row :: rowContribs gap (b :: rest) := rfl

theorem totalBlockH_cons (vGap : ℚ) (row : List (ℚ × ℚ)) (rest : List (List (ℚ × ℚ))) :
    totalBlockH vGap (row :: rest) = rowHeight row + vGap + totalBlockH vGap rest := by
  unfold totalBlockH
  simp only [List.map_cons, List.sum_cons, List.length_cons]
  push_cast
  ring

theorem totalBlockH_single (vGap : ℚ) (row : List (ℚ × ℚ)) :
    totalBlockH vGap [row] = rowHeight row := by
  unfold totalBlockH
  simp

theorem le_rowHeight {d : ℚ × ℚ} {row : List (ℚ × ℚ)} (h : d ∈ row) :
    d.2 ≤ rowHeight row :=
  le_maxList (List.mem_map.mpr ⟨d, h, rfl⟩)

theorem placeRows_zip_bounds {gap vGap : ℚ} (x : ℚ) {rows : List (List (ℚ × ℚ))} (cy : ℚ)
    (hg : 0 ≤ gap) (hv : 0 ≤ vGap)
    (hw : ∀ row ∈ rows, ∀ d ∈ row, 0 ≤ d.1) :
    ∀ zr ∈ rows.zip (placeRows gap vGap x rows cy),
    ∀ z ∈ zr.1.zip zr.2,
      x - maxList (rowContribs gap rows) / 2 ≤ z.2.1 - z.1.1 / 2 ∧
      z.2.1 + z.1.1 / 2 ≤ x + maxList (rowContribs gap rows) / 2 ∧
      cy ≤ z.2.2 ∧ z.2.2 + z.1.2 ≤ cy + totalBlockH vGap rows := by
  induction rows generalizing cy with
  | nil => intro zr hzr; simp [placeRows] at hzr
  | cons row rest ih =>
    intro zr hzr z hz
    cases rest with
    | nil =>
      rw [show placeRows gap vGap x [row] cy =
        [if row.length = 1 then [(x, cy)] else placeSplitRow gap x cy row] from rfl] at hzr
      rw [List.zip_cons_cons] at hzr
      rcases List.mem_cons.mp hzr with rfl | hzr
      · by_cases h1 : row.length = 1
        · rcases List.length_eq_one.mp h1 with ⟨d, rfl⟩
          rw [if_pos h1] at hz
          rw [List.zip_cons_cons] at hz
          rcases List.mem_cons.mp hz with rfl | hz
          · have hd1 : d.1 ≤ maxList (rowContribs gap [[d]]) := by
              rw [rowContribs_single, rowContrib_true_single]
              exact le_maxList (List.mem_singleton.mpr rfl)
            have hd2 : d.2 ≤ rowHeight [d] := le_rowHeight (List.mem_singleton.mpr rfl)
            rw [totalBlockH_single]
            exact ⟨by simp; linarith, by simp; linarith, le_rfl, by linarith⟩
          · simp at hz
        · rw [if_neg h1] at hz
          have hb := placeSplitRow_zip_bounds x cy hg
            (hw row (List.mem_cons_self _ _)) z hz
          have hc : symmetricRowWidth gap row ≤ maxList (rowContribs gap [row]) := by
            rw [rowContribs_single, rowContrib_true_ne_single h1]
            exact le_maxList (List.mem_singleton.mpr rfl)
          have hmem : z.1 ∈ row := (List.of_mem_zip hz).1
          have hh : z.1.2 ≤ rowHeight row := le_rowHeight hmem
          rw [totalBlockH_single]
          exact ⟨by linarith [hb.1], by linarith [hb.2.1], le_of_eq hb.2.2.symm,
            by rw [hb.2.2]; linarith⟩
      · simp at hzr
    | cons b rest2 =>
      rw [show placeRows gap vGap x (row :: b :: rest2) cy =
        placeSplitRow gap x cy row ::
          placeRows gap vGap x (b :: rest2) (cy + rowHeight row + vGap) from rfl] at hzr
      rw [List.zip_cons_cons] at hzr
      have hrest0 : 0 ≤ totalBlockH vGap (b :: rest2) :=
        totalBlockH_ge vGap hv _ (by simp)
      have hrh : 0 ≤ rowHeight row := rowHeight_nonneg row
      rcases List.mem_cons.mp hzr with rfl | hzr
      · have hb := placeSplitRow_zip_bounds x cy hg
          (hw row (List.mem_cons_self _ _)) z hz
        have hc : symmetricRowWidth gap row ≤ maxList (rowContribs gap (row :: b :: rest2)) := by
          rw [rowContribs_cons₂, rowContrib_false]
          exact le_maxList (List.mem_cons_self _ _)
        have hmem : z.1 ∈ row := (List.of_mem_zip hz).1
        have hh : z.1.2 ≤ rowHeight row := le_rowHeight hmem
        rw [totalBlockH_cons]
        exact ⟨by linarith [hb.1], by linarith [hb.2.1], le_of_eq hb.2.2.symm,
          by rw [hb.2.2]; linarith⟩
      · have h := ih (cy + rowHeight row + vGap)
          (fun rr hrr => hw rr (List.mem_cons_of_mem _ hrr)) zr hzr z hz
        have hc : maxList (rowContribs gap (b :: rest2)) ≤
            maxList (rowContribs gap (row :: b :: rest2)) := by
          rw [rowContribs_cons₂]
          exact maxList_le_cons _ _
        rw [totalBlockH_cons]
        exact ⟨by linarith [h.1], by linarith [h.2.1], by linarith [h.2.2.1],
          by linarith [h.2.2.2]⟩

theorem placeRows_zip_pairwise {gap vGap : ℚ} (x : ℚ) {rows : List (List (ℚ × ℚ))} (cy : ℚ)
    (hg : GRID_GAP ≤ gap) (hw : ∀ row ∈ rows, ∀ d ∈ row, 0 ≤ d.1) :
    ∀ zr ∈ rows.zip (placeRows gap vGap x rows cy),
      (zr.1.zip zr.2).Pairwise
        (fun a b => a.2.1 + a.1.1 / 2 + GRID_GAP ≤ b.2.1 - b.1.1 / 2) := by
  induction rows generalizing cy with
  | nil => intro zr hzr; simp [placeRows] at hzr
  | cons row rest ih =>
    intro zr hzr
    cases rest with
    | nil =>
      rw [show placeRows gap vGap x [row] cy =
        [if row.length = 1 then [(x, cy)] else placeSplitRow gap x cy row] from rfl] at hzr
      rw [List.zip_cons_cons] at hzr
      rcases List.mem_cons.mp hzr with rfl | hzr
      · by_cases h1 : row.length = 1
        · rcases List.length_eq_one.mp h1 with ⟨d, rfl⟩
          rw [if_pos h1]
          simp
        · rw [if_neg h1]
          exact placeSplitRow_zip_pairwise x cy hg (hw row (List.mem_cons_self _ _))
      · simp at hzr
    | cons b rest2 =>
      rw [show placeRows gap vGap x (row :: b :: rest2) cy =
        placeSplitRow gap x cy row ::
          placeRows gap vGap x (b :: rest2) (cy + rowHeight row + vGap) from rfl] at hzr
      rw [List.zip_cons_cons] at hzr
      rcases List.mem_cons.mp hzr with rfl | hzr
      · exact placeSplitRow_zip_pairwise x cy hg (hw row (List.mem_cons_self _ _))
      · exact ih (cy + rowHeight row + vGap)
          (fun rr hrr => hw rr (List.mem_cons_of_mem _ hrr)) zr hzr

theorem placeRows_with_flags (gap vGap x : ℚ) (rows : List (List (ℚ × ℚ))) (cy : ℚ) :
    ∀ zz ∈ (lastFlags rows).zip (placeRows gap vGap x rows cy),
      ∃ cyj, zz.2 = if zz.1.1 = true ∧ zz.1.2.length = 1 then [(x, cyj)]
        else placeSplitRow gap x cyj zz.1.2 := by
  induction rows generalizing cy with
  | nil => intro zz hzz; simp [lastFlags, placeRows] at hzz
  | cons row rest ih =>
    intro zz hzz
    cases rest with
    | nil =>
      rw [lastFlags_single,
        show placeRows gap vGap x [row] cy =
          [if row.length = 1 then [(x, cy)] else placeSplitRow gap x cy row] from rfl,
        List.zip_cons_cons] at hzz
      rcases List.mem_cons.mp hzz with rfl | hzz
      · refine ⟨cy, ?_⟩
        by_cases h1 : row.length = 1 <;> simp [h1]
      · simp at hzz
    | cons b rest2 =>
      rw [lastFlags_cons₂,
        show placeRows gap vGap x (row :: b :: rest2) cy =
          placeSplitRow gap x cy row ::
            placeRows gap vGap x (b :: rest2) (cy + rowHeight row + vGap) from rfl,
        List.zip_cons_cons] at hzz
      rcases List.mem_cons.mp hzz with rfl | hzz
      · exact ⟨cy, by simp⟩
      · exact ih (cy + rowHeight row + vGap) zz hzz

/-! ## Node-level placement geometry -/

theorem sizeTree_node (r : ℚ) (i : ℕ) (ts : List OrgTree) :
    sizeTree r (.node i ts) = sizeNode r i (ts.map (sizeTree r)) := by
  rw [sizeTree, sizeListAux_eq_map]

theorem sizeTree_w_ge (r : ℚ) (t : OrgTree) : CARD_WIDTH ≤ (sizeTree r t).w := by
  cases t with
  | node i ts => rw [sizeTree_node]; exact sizeNode_w_ge r i _

theorem sizeTree_h_ge (r : ℚ) (t : OrgTree) : CARD_HEIGHT ≤ (sizeTree r t).h := by
  cases t with
  | node i ts => rw [sizeTree_node]; exact sizeNode_h_ge r i _

theorem sizeTree_children (r : ℚ) (t : OrgTree) :
    (sizeTree r t).children = t.children.map (sizeTree r) := by
  cases t with
  | node i ts => rw [sizeTree_node, sizeNode_children]; rfl

theorem placements_leaf (lens : List ℕ) (dims : List (ℚ × ℚ)) (x y : ℚ) :
    placements .leaf lens dims x y = [] := rfl

theorem placements_row (lens : List ℕ) (dims : List (ℚ × ℚ)) (x y : ℚ) :
    placements .row lens dims x y =
      packRow GAP_H (x - packedW GAP_H (dims.map Prod.fst) / 2)
        (y + CARD_HEIGHT + GAP_V) dims := rfl

theorem placements_grid (lens : List ℕ) (dims : List (ℚ × ℚ)) (x y : ℚ) :
    placements .grid lens dims x y =
      (placeRows GRID_GAP GRID_GAP x (splitLens lens dims)
        (y + CARD_HEIGHT + GAP_V)).flatten := rfl

theorem placements_wrap (lens : List ℕ) (dims : List (ℚ × ℚ)) (x y : ℚ) :
    placements .wrap lens dims x y =
      (placeRows GAP_H GAP_V x (splitLens lens dims)
        (y + CARD_HEIGHT + GAP_V)).flatten := rfl

theorem splitLens_recover {d : List (ℚ × ℚ)} {rows : List (List (ℚ × ℚ))}
    (hflat : rows.flatten = d) :
    splitLens (rows.map List.length) d = rows := by
  rw [← hflat]
  exact splitLens_map_length rows

theorem zip_flatten_mem {α β : Type} {rows : List (List α)} {prows : List (List β)}
    (hlen : rows.map List.length = prows.map List.length) :
    ∀ z ∈ rows.flatten.zip prows.flatten, ∃ zr ∈ rows.zip prows, z ∈ zr.1.zip zr.2 := by
  induction rows generalizing prows with
  | nil =>
    intro z hz
    simp at hz
  | cons row rest ih =>
    intro z hz
    cases prows with
    | nil => simp at hlen
    | cons prow prest =>
      simp only [List.map_cons, List.cons.injEq] at hlen
      rw [List.flatten_cons, List.flatten_cons] at hz
      rcases zip_split_mem (n := row.length)
          (by rw [List.take_left]; exact hlen.1) hz with h | h
      · rw [List.take_left] at h
        exact ⟨(row, prow), by
          rw [List.zip_cons_cons]; exact List.mem_cons_self _ _, h⟩
      · rw [List.drop_left] at h
        rcases ih hlen.2 z h with ⟨zr, hzr, hmem⟩
        exact ⟨zr, by rw [List.zip_cons_cons]; exact List.mem_cons_of_mem _ hzr, hmem⟩

theorem dims_fst_nonneg {cs : List Sized} (hw : ∀ c ∈ cs, CARD_WIDTH ≤ c.w) :
    ∀ d ∈ Sized.dims cs, 0 ≤ d.1 := by
  intro d hd
  rcases List.mem_map.mp hd with ⟨c, hc, rfl⟩
  have h := hw c hc
  have hW : (0 : ℚ) ≤ CARD_WIDTH := by norm_num [CARD_WIDTH]
  exact le_trans hW (by simpa [Sized.dim] using h)

/-- The central per-node geometric fact: every child footprint placed by
`positionNode` lies inside its parent's computed footprint box, one level
below the parent's card. -/
theorem sizeNode_placements_bounds (r : ℚ) (i : ℕ) {cs : List Sized}
    (hw : ∀ c ∈ cs, CARD_WIDTH ≤ c.w) (x y : ℚ) :
    ∀ z ∈ (Sized.dims cs).zip
        (placements (sizeNode r i cs).layout (sizeNode r i cs).rowLens (Sized.dims cs) x y),
      x - (sizeNode r i cs).w / 2 ≤ z.2.1 - z.1.1 / 2 ∧
      z.2.1 + z.1.1 / 2 ≤ x + (sizeNode r i cs).w / 2 ∧
      y + CARD_HEIGHT + GAP_V ≤ z.2.2 ∧ z.2.2 + z.1.2 ≤ y + (sizeNode r i cs).h := by
  have hd0 : ∀ d ∈ Sized.dims cs, 0 ≤ d.1 := dims_fst_nonneg hw
  rcases eq_or_ne cs [] with rfl | hne
  · intro z hz
    simp [sizeNode_nil, Sized.layout, placements_leaf] at hz
  · rcases sizeNode_three_cases r i cs hne with ⟨_, _, hEq⟩ | ⟨_, _, _, hEq⟩ | ⟨_, _, hEq⟩
    · -- grid
      rw [hEq]
      simp only [Sized.layout, Sized.rowLens, Sized.w, Sized.h]
      set rows := chunks (gridCols cs.length) (Sized.dims cs) with hrows
      have hflat : rows.flatten = Sized.dims cs := chunks_flatten _
      rw [placements_grid, splitLens_recover hflat]
      intro z hz
      rw [← hflat] at hz
      have hrw : ∀ row ∈ rows, ∀ d ∈ row, 0 ≤ d.1 := by
        intro row hrow d hd
        exact hd0 d (by rw [← hflat]; exact List.mem_flatten.mpr ⟨row, hrow, hd⟩)
      obtain ⟨zr, hzr, hmem⟩ := zip_flatten_mem
        (placeRows_lengths GRID_GAP GRID_GAP x rows (y + CARD_HEIGHT + GAP_V)).symm z hz
      have hb := placeRows_zip_bounds x (y + CARD_HEIGHT + GAP_V)
        (by norm_num [GRID_GAP]) (by norm_num [GRID_GAP]) hrw zr hzr z hmem
      have hM := le_max_right CARD_WIDTH (maxList (rowContribs GRID_GAP rows))
      have hM2 : maxList (rowContribs GRID_GAP rows) ≤
          max CARD_WIDTH (maxList (rowContribs GRID_GAP rows)) := hM
      exact ⟨by linarith [hb.1], by linarith [hb.2.1], hb.2.2.1, by linarith [hb.2.2.2]⟩
    · -- wrap
      rw [hEq]
      simp only [Sized.layout, Sized.rowLens, Sized.w, Sized.h]
      set rows := wrapLoop (wrapCap r (Sized.dims cs)) [] [] 0 (Sized.dims cs) with hrows
      have hflat : rows.flatten = Sized.dims cs := by
        rw [hrows]
        simpa using wrapLoop_flatten (wrapCap r (Sized.dims cs)) [] [] 0 (Sized.dims cs)
      rw [placements_wrap, splitLens_recover hflat]
      intro z hz
      rw [← hflat] at hz
      have hrw : ∀ row ∈ rows, ∀ d ∈ row, 0 ≤ d.1 := by
        intro row hrow d hd
        exact hd0 d (by rw [← hflat]; exact List.mem_flatten.mpr ⟨row, hrow, hd⟩)
      obtain ⟨zr, hzr, hmem⟩ := zip_flatten_mem
        (placeRows_lengths GAP_H GAP_V x rows (y + CARD_HEIGHT + GAP_V)).symm z hz
      have hb := placeRows_zip_bounds x (y + CARD_HEIGHT + GAP_V)
        (by norm_num [GAP_H]) (by norm_num [GAP_V]) hrw zr hzr z hmem
      have hM2 : maxList (rowContribs GAP_H rows) ≤
          max CARD_WIDTH (maxList (rowContribs GAP_H rows)) := le_max_right _ _
      exact ⟨by linarith [hb.1], by linarith [hb.2.1], hb.2.2.1, by linarith [hb.2.2.2]⟩
    · -- row
      rw [hEq]
      simp only [Sized.layout, Sized.rowLens, Sized.w, Sized.h]
      rw [placements_row]
      intro z hz
      have hb := packRow_zip_bounds
        (x - packedW GAP_H ((Sized.dims cs).map Prod.fst) / 2) (y + CARD_HEIGHT + GAP_V)
        (by norm_num [GAP_H]) hd0 z hz
      have hM2 : packedW GAP_H ((Sized.dims cs).map Prod.fst) ≤
          max CARD_WIDTH (packedW GAP_H ((Sized.dims cs).map Prod.fst)) := le_max_right _ _
      have hmem : z.1 ∈ Sized.dims cs := (List.of_mem_zip hz).1
      have hh : z.1.2 ≤ maxList ((Sized.dims cs).map Prod.snd) :=
        le_maxList (List.mem_map.mpr ⟨z.1, hmem, rfl⟩)
      refine ⟨by linarith [hb.1], by linarith [hb.2.1], le_of_eq hb.2.2.symm, ?_⟩
      rw [hb.2.2]
      linarith

/-! ## Tree-level geometry -/

theorem mem_zip_map_left {α β γ : Type} {l1 : List α} {l2 : List β} (f : α → γ)
    {z : α × β} (hz : z ∈ l1.zip l2) : (f z.1, z.2) ∈ (l1.map f).zip l2 := by
  induction l1 generalizing l2 with
  | nil => simp at hz
  | cons a l1 ih =>
    cases l2 with
    | nil => simp at hz
    | cons b l2 =>
      rw [List.zip_cons_cons] at hz
      rw [List.map_cons, List.zip_cons_cons]
      rcases List.mem_cons.mp hz with rfl | hz
      · exact List.mem_cons_self _ _
      · exact List.mem_cons_of_mem _ (ih hz)

/-- Every node of a positioned subtree keeps its card inside the subtree
root's footprint box. -/
theorem allPNodes_in_box (r : ℚ) : ∀ (t : OrgTree) (x y : ℚ),
    ∀ q ∈ allPNodes (positionNode (sizeTree r t) x y),
      x - (sizeTree r t).w / 2 ≤ q.x - CARD_WIDTH / 2 ∧
      q.x + CARD_WIDTH / 2 ≤ x + (sizeTree r t).w / 2 ∧
      y ≤ q.y ∧ q.y + CARD_HEIGHT ≤ y + (sizeTree r t).h := by
  refine orgTreeInd (fun i ts IH x y q hq => ?_)
  rw [allPNodes_eq] at hq
  rcases List.mem_cons.mp hq with rfl | hq
  · rw [positionNode_x, positionNode_y]
    have h1 := sizeTree_w_ge r (.node i ts)
    have h2 := sizeTree_h_ge r (.node i ts)
    exact ⟨by linarith, by linarith, le_rfl, by linarith⟩
  · rw [positionNode_children] at hq
    rcases mem_allPNodesList.mp hq with ⟨pc, hpc, hqin⟩
    rcases mem_positionList hpc with ⟨z, hz, rfl⟩
    have hsc : (sizeTree r (.node i ts)).children = ts.map (sizeTree r) := by
      rw [sizeTree_node, sizeNode_children]
    rw [hsc] at hz
    have hz1mem : z.1 ∈ ts.map (sizeTree r) := (List.of_mem_zip hz).1
    rcases List.mem_map.mp hz1mem with ⟨t1, ht1, hzt1⟩
    -- the placement pair for this child's footprint
    have hzd : (Sized.dim z.1, z.2) ∈ (Sized.dims (ts.map (sizeTree r))).zip
        (placements (sizeTree r (.node i ts)).layout (sizeTree r (.node i ts)).rowLens
          (Sized.dims (sizeTree r (.node i ts)).children) x y) := by
      rw [hsc]
      exact mem_zip_map_left Sized.dim hz
    have hwAll : ∀ c ∈ ts.map (sizeTree r), CARD_WIDTH ≤ c.w := by
      intro c hc
      rcases List.mem_map.mp hc with ⟨t2, _, rfl⟩
      exact sizeTree_w_ge r t2
    have hbnd := by
      have h0 := sizeNode_placements_bounds r i hwAll x y (Sized.dim z.1, z.2)
      rw [← sizeTree_node] at h0
      rw [hsc] at hzd
      exact h0 hzd
    have hIH := IH t1 ht1 z.2.1 z.2.2 q (by rw [hzt1]; exact hqin)
    have hdw : (Sized.dim z.1).1 = (sizeTree r t1).w := by rw [hzt1]; rfl
    have hdh : (Sized.dim z.1).2 = (sizeTree r t1).h := by rw [hzt1]; rfl
    rw [hdw, hdh] at hbnd
    have hHG : (0 : ℚ) ≤ CARD_HEIGHT + GAP_V := by norm_num [CARD_HEIGHT, GAP_V]
    refine ⟨?_, ?_, ?_, ?_⟩
    · linarith [hbnd.1, hIH.1]
    · linarith [hbnd.2.1, hIH.2.1]
    · linarith [hbnd.2.2.1, hIH.2.2.1]
    · linarith [hbnd.2.2.2, hIH.2.2.2]

/-- Every node of a positioned tree is itself the root of a positioned
sized subtree. -/
theorem origin_of_mem (r : ℚ) : ∀ (t : OrgTree) (x y : ℚ),
    ∀ q ∈ allPNodes (positionNode (sizeTree r t) x y),
      ∃ t1 x1 y1, q = positionNode (sizeTree r t1) x1 y1 := by
  refine orgTreeInd (fun i ts IH x y q hq => ?_)
  rw [allPNodes_eq] at hq
  rcases List.mem_cons.mp hq with rfl | hq
  · exact ⟨.node i ts, x, y, rfl⟩
  · rw [positionNode_children] at hq
    rcases mem_allPNodesList.mp hq with ⟨pc, hpc, hqin⟩
    rcases mem_positionList hpc with ⟨z, hz, rfl⟩
    have hsc : (sizeTree r (.node i ts)).children = ts.map (sizeTree r) := by
      rw [sizeTree_node, sizeNode_children]
    rw [hsc] at hz
    rcases List.mem_map.mp (List.of_mem_zip hz).1 with ⟨t1, ht1, hzt1⟩
    exact IH t1 ht1 z.2.1 z.2.2 q (by rw [hzt1]; exact hqin)

/-! ## Origins and child coordinates -/

theorem sized_origin (r : ℚ) : ∀ (t : OrgTree),
    ∀ s ∈ allSNodes (sizeTree r t), ∃ t1, s = sizeTree r t1 := by
  refine orgTreeInd (fun i ts IH s hs => ?_)
  rw [allSNodes_eq] at hs
  rcases List.mem_cons.mp hs with rfl | hs
  · exact ⟨.node i ts, rfl⟩
  · rw [sizeTree_children] at hs
    rcases mem_allSNodesList.mp hs with ⟨c, hc, hsin⟩
    rcases List.mem_map.mp hc with ⟨t1, ht1, rfl⟩
    exact IH t1 ht1 s hsin

theorem children_y_lower (r : ℚ) (t1 : OrgTree) (x y : ℚ) :
    ∀ c ∈ (positionNode (sizeTree r t1) x y).children, y + CARD_HEIGHT + GAP_V ≤ c.y := by
  intro c hc
  cases t1 with
  | node i ts =>
    rw [positionNode_children] at hc
    rcases mem_positionList hc with ⟨z, hz, rfl⟩
    rw [positionNode_y]
    have hsc : (sizeTree r (.node i ts)).children = ts.map (sizeTree r) := by
      rw [sizeTree_node, sizeNode_children]
    rw [hsc] at hz
    have hwAll : ∀ c ∈ ts.map (sizeTree r), CARD_WIDTH ≤ c.w := by
      intro c hc2
      rcases List.mem_map.mp hc2 with ⟨t2, _, rfl⟩
      exact sizeTree_w_ge r t2
    have hzd : (Sized.dim z.1, z.2) ∈ (Sized.dims (ts.map (sizeTree r))).zip
        (placements (sizeTree r (.node i ts)).layout (sizeTree r (.node i ts)).rowLens
          (Sized.dims (ts.map (sizeTree r))) x y) := mem_zip_map_left Sized.dim hz
    have h0 := sizeNode_placements_bounds r i hwAll x y (Sized.dim z.1, z.2)
    rw [← sizeTree_node] at h0
    exact (h0 hzd).2.2.1

theorem minList1_eq_head {a : ℚ} {l : List ℚ} (h : ∀ b ∈ l, a ≤ b) :
    minList1 (a :: l) = a := by
  show l.foldl min a = a
  induction l with
  | nil => rfl
  | cons b l ih =>
    rw [List.foldl_cons, min_eq_left (h b (List.mem_cons_self _ _))]
    exact ih fun c hc => h c (List.mem_cons_of_mem _ hc)

/-! ## Claim theorems (first group) -/

/-- C6: in every sized pruned tree, every node's computed width is at least
the fixed card width, and every node classified as a Leaf (no children
after pruning — originally childless or collapsed) is sized exactly
`CARD_WIDTH × CARD_HEIGHT` with `layoutType = Leaf`. -/
theorem claim_C6 (r : ℚ) (ids : List ℕ) (t : OrgTree) :
    ∀ s ∈ allSNodes (sizeTree r (applyCollapse ids t)),
      CARD_WIDTH ≤ s.w ∧
      (s.children = [] →
        s.w = CARD_WIDTH ∧ s.h = CARD_HEIGHT ∧ s.layout = .leaf) := by
  intro s hs
  rcases sized_origin r (applyCollapse ids t) s hs with ⟨t1, rfl⟩
  refine ⟨sizeTree_w_ge r t1, fun hch => ?_⟩
  cases t1 with
  | node i ts =>
    have : ts.map (sizeTree r) = [] := by
      rw [← sizeNode_children r i (ts.map (sizeTree r)), ← sizeTree_node]
      exact hch
    have hts : ts = [] := List.map_eq_nil_iff.mp this
    subst hts
    rw [sizeTree_node]
    exact ⟨rfl, rfl, rfl⟩

/-- C6 witness: the invariant instantiated at a two-leaf tree, at its root
node, with no collapsed ids. -/
theorem claim_C6_witness :
    CARD_WIDTH ≤ (sizeTree 1 (applyCollapse [] treeTwo)).w ∧
    ((sizeTree 1 (applyCollapse [] treeTwo)).children = [] →
      (sizeTree 1 (applyCollapse [] treeTwo)).w = CARD_WIDTH ∧
      (sizeTree 1 (applyCollapse [] treeTwo)).h = CARD_HEIGHT ∧
      (sizeTree 1 (applyCollapse [] treeTwo)).layout = .leaf) :=
  claim_C6 1 [] treeTwo (sizeTree 1 (applyCollapse [] treeTwo))
    (by rw [allSNodes_eq]; exact List.mem_cons_self _ _)

/-- C9: the positioned layout respects the sizer's footprints — the card of
every node in a subtree lies inside the box spanned by the subtree root's
position and computed footprint. -/
theorem claim_C9 (r : ℚ) (hr : 0 < r) (t : OrgTree) :
    ∀ p ∈ allPNodes (positionNode (sizeTree r t) 0 0),
    ∀ q ∈ allPNodes p,
      p.x - p.w / 2 ≤ q.x - CARD_WIDTH / 2 ∧ q.x + CARD_WIDTH / 2 ≤ p.x + p.w / 2 ∧
      p.y ≤ q.y ∧ q.y + CARD_HEIGHT ≤ p.y + p.h := by
  intro p hp q hq
  rcases origin_of_mem r t 0 0 p hp with ⟨t1, x1, y1, rfl⟩
  have h := allPNodes_in_box r t1 x1 y1 q hq
  rw [positionNode_x, positionNode_y, positionNode_w, positionNode_h]
  exact h

/-- C9 witness: the containment instantiated at the two-leaf tree's root
(as both the ancestor and the subtree node). -/
theorem claim_C9_witness :
    (0 : ℚ) < 1 ∧
    ((positionNode (sizeTree 1 treeTwo) 0 0).x -
        (positionNode (sizeTree 1 treeTwo) 0 0).w / 2 ≤
      (positionNode (sizeTree 1 treeTwo) 0 0).x - CARD_WIDTH / 2 ∧
    (positionNode (sizeTree 1 treeTwo) 0 0).x + CARD_WIDTH / 2 ≤
      (positionNode (sizeTree 1 treeTwo) 0 0).x +
        (positionNode (sizeTree 1 treeTwo) 0 0).w / 2 ∧
    (positionNode (sizeTree 1 treeTwo) 0 0).y ≤
      (positionNode (sizeTree 1 treeTwo) 0 0).y ∧
    (positionNode (sizeTree 1 treeTwo) 0 0).y + CARD_HEIGHT ≤
      (positionNode (sizeTree 1 treeTwo) 0 0).y +
        (positionNode (sizeTree 1 treeTwo) 0 0).h) :=
  ⟨by norm_num,
    claim_C9 1 (by norm_num) treeTwo (positionNode (sizeTree 1 treeTwo) 0 0)
      (by rw [allPNodes_eq]; exact List.mem_cons_self _ _)
      (positionNode (sizeTree 1 treeTwo) 0 0)
      (by rw [allPNodes_eq]; exact List.mem_cons_self _ _)⟩

/-- C10: the root is anchored at `(0, 0)`; every node's `y` is nonnegative,
every child sits strictly below its parent, and the bounding rectangle's
`minY` is 0. -/
theorem claim_C10 (r : ℚ) (ids : List ℕ) (t : OrgTree) :
    (computeBalancedLayout r ids t).x = 0 ∧
    (computeBalancedLayout r ids t).y = 0 ∧
    (∀ q ∈ allPNodes (computeBalancedLayout r ids t), 0 ≤ q.y) ∧
    (∀ q ∈ allPNodes (computeBalancedLayout r ids t), ∀ c ∈ q.children, q.y < c.y) ∧
    boundsMinY (computeBalancedLayout r ids t) = 0 := by
  have hy0 : ∀ q ∈ allPNodes (computeBalancedLayout r ids t), 0 ≤ q.y := by
    intro q hq
    exact (allPNodes_in_box r (applyCollapse ids t) 0 0 q hq).2.2.1
  refine ⟨positionNode_x _ 0 0, positionNode_y _ 0 0, hy0, ?_, ?_⟩
  · intro q hq c hc
    rcases origin_of_mem r (applyCollapse ids t) 0 0 q hq with ⟨t1, x1, y1, rfl⟩
    have h := children_y_lower r t1 x1 y1 c hc
    rw [positionNode_y]
    have : (0 : ℚ) < CARD_HEIGHT + GAP_V := by norm_num [CARD_HEIGHT, GAP_V]
    linarith
  · unfold boundsMinY
    rw [allPNodes_eq, List.map_cons]
    have hxy : (computeBalancedLayout r ids t).y = 0 := positionNode_y _ 0 0
    rw [hxy]
    apply minList1_eq_head
    intro b hb
    rcases List.mem_map.mp hb with ⟨q, hq, rfl⟩
    exact hy0 q (by rw [allPNodes_eq]; exact List.mem_cons_of_mem _ hq)

/-- C10 witness: the anchoring facts instantiated at the two-leaf tree. -/
theorem claim_C10_witness :
    (computeBalancedLayout 1 [] treeTwo).x = 0 ∧
    (computeBalancedLayout 1 [] treeTwo).y = 0 ∧
    (∀ q ∈ allPNodes (computeBalancedLayout 1 [] treeTwo), 0 ≤ q.y) ∧
    (∀ q ∈ allPNodes (computeBalancedLayout 1 [] treeTwo), ∀ c ∈ q.children, q.y < c.y) ∧
    boundsMinY (computeBalancedLayout 1 [] treeTwo) = 0 :=
  claim_C10 1 [] treeTwo

/-! ## Transfer from footprint placements to positioned children -/

theorem positionList_nil_right (cs : List Sized) : positionList cs [] = [] := by
  cases cs <;> rfl

theorem positionList_pairwise_of {S : PTree → PTree → Prop}
    {T : ((ℚ × ℚ) × (ℚ × ℚ)) → ((ℚ × ℚ) × (ℚ × ℚ)) → Prop}
    (hST : ∀ c1 p1 c2 p2, T (Sized.dim c1, p1) (Sized.dim c2, p2) →
      S (positionNode c1 p1.1 p1.2) (positionNode c2 p2.1 p2.2)) :
    ∀ (cs : List Sized) (ps : List (ℚ × ℚ)),
      ((Sized.dims cs).zip ps).Pairwise T → (positionList cs ps).Pairwise S := by
  intro cs
  induction cs with
  | nil => intro ps h; simp [positionList]
  | cons c cs ih =>
    intro ps h
    cases ps with
    | nil => rw [positionList_nil_right]; exact List.Pairwise.nil
    | cons p ps =>
      rw [show positionList (c :: cs) (p :: ps) =
        positionNode c p.1 p.2 :: positionList cs ps from rfl]
      have hzip : (Sized.dims (c :: cs)).zip (p :: ps) =
          (Sized.dim c, p) :: (Sized.dims cs).zip ps := rfl
      rw [hzip, List.pairwise_cons] at h
      rw [List.pairwise_cons]
      refine ⟨?_, ih ps h.2⟩
      intro b hb
      rcases mem_positionList hb with ⟨z, hz, rfl⟩
      exact hST c p z.1 z.2 (h.1 (Sized.dim z.1, z.2) (mem_zip_map_left Sized.dim hz))

theorem positionList_chain_of {S : PTree → PTree → Prop}
    {T : ((ℚ × ℚ) × (ℚ × ℚ)) → ((ℚ × ℚ) × (ℚ × ℚ)) → Prop}
    (hST : ∀ c1 p1 c2 p2, T (Sized.dim c1, p1) (Sized.dim c2, p2) →
      S (positionNode c1 p1.1 p1.2) (positionNode c2 p2.1 p2.2)) :
    ∀ (cs : List Sized) (ps : List (ℚ × ℚ)),
      List.Chain' T ((Sized.dims cs).zip ps) → List.Chain' S (positionList cs ps) := by
  intro cs
  induction cs with
  | nil => intro ps h; simp [positionList]
  | cons c cs ih =>
    intro ps h
    cases ps with
    | nil => rw [positionList_nil_right]; exact List.chain'_nil
    | cons p ps =>
      cases cs with
      | nil => simp [positionList]
      | cons c2 cs2 =>
        cases ps with
        | nil =>
          rw [show positionList (c :: c2 :: cs2) [p] =
            [positionNode c p.1 p.2] from rfl]
          simp
        | cons p2 ps2 =>
          rw [show positionList (c :: c2 :: cs2) (p :: p2 :: ps2) =
            positionNode c p.1 p.2 :: positionNode c2 p2.1 p2.2 ::
              positionList cs2 ps2 from rfl]
          have hz : (Sized.dims (c :: c2 :: cs2)).zip (p :: p2 :: ps2) =
              (Sized.dim c, p) :: (Sized.dim c2, p2) ::
                (Sized.dims cs2).zip ps2 := rfl
          rw [hz, List.chain'_cons] at h
          rw [List.chain'_cons]
          refine ⟨hST _ _ _ _ h.1, ?_⟩
          have := ih (p2 :: ps2) h.2
          rw [show positionList (c2 :: cs2) (p2 :: ps2) =
            positionNode c2 p2.1 p2.2 :: positionList cs2 ps2 from rfl] at this
          exact this

theorem positionList_forall_of {S : PTree → Prop}
    {T : (ℚ × ℚ) × (ℚ × ℚ) → Prop}
    (hST : ∀ c p, T (Sized.dim c, p) → S (positionNode c p.1 p.2))
    (cs : List Sized) (ps : List (ℚ × ℚ))
    (h : ∀ z ∈ (Sized.dims cs).zip ps, T z) :
    ∀ b ∈ positionList cs ps, S b := by
  intro b hb
  rcases mem_positionList hb with ⟨z, hz, rfl⟩
  exact hST z.1 z.2 (h (Sized.dim z.1, z.2) (mem_zip_map_left Sized.dim hz))

theorem positionList_getLast :
    ∀ (cs : List Sized) (ps : List (ℚ × ℚ)), cs ≠ [] → ps.length = cs.length →
    ∃ z, (cs.zip ps).getLast? = some z ∧
      (positionList cs ps).getLast? = some (positionNode z.1 z.2.1 z.2.2) := by
  intro cs
  induction cs with
  | nil => intro ps h; simp at h
  | cons c cs ih =>
    intro ps hne hlen
    cases ps with
    | nil => simp at hlen
    | cons p ps =>
      cases cs with
      | nil =>
        cases ps with
        | nil => exact ⟨(c, p), rfl, rfl⟩
        | cons q qs => simp at hlen
      | cons c2 cs2 =>
        cases ps with
        | nil => simp at hlen
        | cons p2 ps2 =>
          obtain ⟨z, hz1, hz2⟩ := ih (p2 :: ps2) (by simp)
            (by simpa using hlen)
          refine ⟨z, ?_, ?_⟩
          · rw [List.zip_cons_cons, List.zip_cons_cons, List.getLast?_cons_cons]
            rw [List.zip_cons_cons] at hz1
            exact hz1
          · rw [show positionList (c :: c2 :: cs2) (p :: p2 :: ps2) =
              positionNode c p.1 p.2 :: positionNode c2 p2.1 p2.2 ::
                positionList cs2 ps2 from rfl]
            rw [List.getLast?_cons_cons]
            rw [show positionNode c2 p2.1 p2.2 :: positionList cs2 ps2 =
              positionList (c2 :: cs2) (p2 :: ps2) from rfl]
            exact hz2

/-! ## Row-layout positioning facts -/

theorem packRow_y (gap x0 y : ℚ) (l : List (ℚ × ℚ)) :
    ∀ q ∈ packRow gap x0 y l, q.2 = y := by
  induction l generalizing x0 with
  | nil => simp [packRow]
  | cons d rest ih =>
    intro q hq
    rw [packRow_cons] at hq
    rcases List.mem_cons.mp hq with rfl | hq
    · rfl
    · exact ih (x0 + d.1 + gap) q hq

theorem positionList_map_w :
    ∀ (cs : List Sized) (ps : List (ℚ × ℚ)), ps.length = cs.length →
      (positionList cs ps).map PTree.w = cs.map Sized.w := by
  intro cs
  induction cs with
  | nil => intro ps h; simp [positionList]
  | cons c cs ih =>
    intro ps hlen
    cases ps with
    | nil => simp at hlen
    | cons p ps =>
      rw [show positionList (c :: cs) (p :: ps) =
        positionNode c p.1 p.2 :: positionList cs ps from rfl]
      rw [List.map_cons, List.map_cons, positionNode_w, ih ps (by simpa using hlen)]

theorem getLast?_zip {α β : Type} :
    ∀ (l1 : List α) (l2 : List β), l2.length = l1.length → l1 ≠ [] →
    ∃ a b, l1.getLast? = some a ∧ l2.getLast? = some b ∧
      (l1.zip l2).getLast? = some (a, b) := by
  intro l1
  induction l1 with
  | nil => intro l2 h hne; simp at hne
  | cons a l1 ih =>
    intro l2 hlen hne
    cases l2 with
    | nil => simp at hlen
    | cons b l2 =>
      cases l1 with
      | nil =>
        cases l2 with
        | nil => exact ⟨a, b, rfl, rfl, rfl⟩
        | cons b2 l2 => simp at hlen
      | cons a2 l1 =>
        cases l2 with
        | nil => simp at hlen
        | cons b2 l2 =>
          obtain ⟨u, v, h1, h2, h3⟩ := ih (b2 :: l2) (by simpa using hlen) (by simp)
          refine ⟨u, v, ?_, ?_, ?_⟩
          · rw [List.getLast?_cons_cons]; exact h1
          · rw [List.getLast?_cons_cons]; exact h2
          · rw [List.zip_cons_cons, List.zip_cons_cons, List.getLast?_cons_cons]
            rw [List.zip_cons_cons] at h3
            exact h3

theorem dims_map_fst (cs : List Sized) :
    (Sized.dims cs).map Prod.fst = cs.map Sized.w := by
  simp [Sized.dims, Sized.dim, Function.comp]

theorem positionList_packRow_head (gap x0 cy : ℚ) (cs : List Sized) (c0 : PTree)
    (hc0 : (positionList cs (packRow gap x0 cy (Sized.dims cs))).head? = some c0) :
    c0.x - c0.w / 2 = x0 := by
  cases cs with
  | nil => simp [Sized.dims, packRow, positionList] at hc0
  | cons c1 rest =>
    rw [show Sized.dims (c1 :: rest) = Sized.dim c1 :: Sized.dims rest from rfl,
      packRow_cons] at hc0
    rw [show positionList (c1 :: rest)
        ((x0 + (Sized.dim c1).1 / 2, cy) ::
          packRow gap (x0 + (Sized.dim c1).1 + gap) cy (Sized.dims rest)) =
      positionNode c1 (x0 + (Sized.dim c1).1 / 2) cy ::
        positionList rest (packRow gap (x0 + (Sized.dim c1).1 + gap) cy (Sized.dims rest))
      from rfl] at hc0
    rw [List.head?_cons, Option.some.injEq] at hc0
    rw [← hc0, positionNode_x, positionNode_w]
    have hdw : (Sized.dim c1).1 = c1.w := rfl
    rw [hdw]
    ring

theorem positionList_packRow_last (gap x0 cy : ℚ) (cs : List Sized) (cl : PTree)
    (hne : cs ≠ [])
    (hcl : (positionList cs (packRow gap x0 cy (Sized.dims cs))).getLast? = some cl) :
    cl.x + cl.w / 2 = x0 + packedW gap ((Sized.dims cs).map Prod.fst) := by
  have hlen : (packRow gap x0 cy (Sized.dims cs)).length = cs.length := by
    rw [packRow_length]; simp [Sized.dims]
  obtain ⟨z, hz1, hz2⟩ := positionList_getLast cs (packRow gap x0 cy (Sized.dims cs)) hne hlen
  have hcl2 : cl = positionNode z.1 z.2.1 z.2.2 := (Option.some.inj (hz2.symm.trans hcl)).symm
  obtain ⟨a, b, ha, hb, hab⟩ :=
    getLast?_zip cs (packRow gap x0 cy (Sized.dims cs)) (by rw [hlen]) hne
  have hzab : z = (a, b) := (Option.some.inj (hab.symm.trans hz1)).symm
  obtain ⟨dl, pl, hdl, hpl, hsum, hply⟩ :=
    packRow_getLast (l := Sized.dims cs) gap x0 cy (by simpa [Sized.dims] using hne)
  have hdla : dl = Sized.dim a := by
    have hmap : (Sized.dims cs).getLast? = (cs.getLast?).map Sized.dim := by
      rw [Sized.dims, List.getLast?_map]
    rw [hmap, ha] at hdl
    simpa using hdl.symm
  have hplb : pl = b := Option.some.inj (hpl.symm.trans hb)
  rw [hcl2, hzab, positionNode_x, positionNode_w]
  rw [hdla, hplb] at hsum
  have hda : (Sized.dim a).1 = a.w := rfl
  rw [hda] at hsum
  exact hsum

/-- What `positionNode` does below a Row-classified node: children one
level down, spaced by half-widths plus `GAP_H`, starting at
`parentX - totalChildrenWidth/2`, whose combined span is centred on the
parent. -/
theorem row_node_facts (r : ℚ) (t1 : OrgTree) (x y : ℚ)
    (hrow : (sizeTree r t1).layout = .row) :
    (∀ c ∈ (positionNode (sizeTree r t1) x y).children,
      c.y = y + CARD_HEIGHT + GAP_V) ∧
    List.Chain' (fun a b => b.x = a.x + a.w / 2 + GAP_H + b.w / 2)
      (positionNode (sizeTree r t1) x y).children ∧
    (∀ c0, (positionNode (sizeTree r t1) x y).children.head? = some c0 →
      c0.x - c0.w / 2 =
        x - packedW GAP_H
          ((positionNode (sizeTree r t1) x y).children.map PTree.w) / 2) ∧
    (∀ c0 cl, (positionNode (sizeTree r t1) x y).children.head? = some c0 →
      (positionNode (sizeTree r t1) x y).children.getLast? = some cl →
      (c0.x - c0.w / 2 + (cl.x + cl.w / 2)) / 2 = x) := by
  cases t1 with
  | node i ts =>
    rw [sizeTree_node] at hrow ⊢
    rcases eq_or_ne (ts.map (sizeTree r)) [] with hnil | hne
    · rw [hnil, sizeNode_nil] at hrow
      simp [Sized.layout] at hrow
    · rcases sizeNode_three_cases r i (ts.map (sizeTree r)) hne with
        ⟨_, _, hEq⟩ | ⟨_, _, _, hEq⟩ | ⟨_, _, hEq⟩
      · rw [hEq] at hrow; simp [Sized.layout] at hrow
      · rw [hEq] at hrow; simp [Sized.layout] at hrow
      · rw [hEq]
        rw [positionNode_children]
        simp only [Sized.layout, Sized.rowLens, Sized.children]
        rw [placements_row]
        have hlen : (packRow GAP_H
            (x - packedW GAP_H ((Sized.dims (ts.map (sizeTree r))).map Prod.fst) / 2)
            (y + CARD_HEIGHT + GAP_V) (Sized.dims (ts.map (sizeTree r)))).length =
            (ts.map (sizeTree r)).length := by
          rw [packRow_length]; simp [Sized.dims]
        have hmapw : (positionList (ts.map (sizeTree r))
            (packRow GAP_H
              (x - packedW GAP_H ((Sized.dims (ts.map (sizeTree r))).map Prod.fst) / 2)
              (y + CARD_HEIGHT + GAP_V) (Sized.dims (ts.map (sizeTree r))))).map PTree.w =
            (ts.map (sizeTree r)).map Sized.w :=
          positionList_map_w _ _ hlen
    -- abbreviate the total width equality between placed and sized children
        have hmapw2 : packedW GAP_H ((positionList (ts.map (sizeTree r))
            (packRow GAP_H
              (x - packedW GAP_H ((Sized.dims (ts.map (sizeTree r))).map Prod.fst) / 2)
              (y + CARD_HEIGHT + GAP_V) (Sized.dims (ts.map (sizeTree r))))).map PTree.w) =
            packedW GAP_H ((Sized.dims (ts.map (sizeTree r))).map Prod.fst) := by
          rw [hmapw, dims_map_fst]
        refine ⟨?_, ?_, ?_, ?_⟩
        · intro c hc
          rcases mem_positionList hc with ⟨z, hz, rfl⟩
          rw [positionNode_y]
          exact packRow_y _ _ _ _ z.2 (List.of_mem_zip hz).2
        · refine positionList_chain_of ?_ _ _ (packRow_zip_chain GAP_H _ _ _)
          intro c1 p1 c2 p2 hT
          rw [positionNode_x, positionNode_x, positionNode_w, positionNode_w]
          exact hT
        · intro c0 hc0
          rw [hmapw2]
          exact positionList_packRow_head _ _ _ _ c0 hc0
        · intro c0 cl hc0 hcl
          have h0 := positionList_packRow_head _ _ _ _ c0 hc0
          have h1 := positionList_packRow_last _ _ _ _ cl hne hcl
          linarith

set_option maxRecDepth 100000

/-- C4: Row-layout positioning — every Row parent's children sit one level
below it, consecutive children are spaced by their half widths plus
`GAP_H`, the first child starts at `parentX - totalChildrenWidth/2`, and
the parent's `x` is the midpoint of the children's combined span; in
particular a root with two leaf children at aspect ratio 1 is a Row whose
children are symmetric about the root with card edges `GAP_H` apart. -/
theorem claim_C4 (r : ℚ) (t : OrgTree) :
    (∀ p ∈ allPNodes (positionNode (sizeTree r t) 0 0), p.layout = .row →
      (∀ c ∈ p.children, c.y = p.y + CARD_HEIGHT + GAP_V) ∧
      List.Chain' (fun a b => b.x = a.x + a.w / 2 + GAP_H + b.w / 2) p.children ∧
      (∀ c0, p.children.head? = some c0 →
        c0.x - c0.w / 2 = p.x - packedW GAP_H (p.children.map PTree.w) / 2) ∧
      (∀ c0 cl, p.children.head? = some c0 → p.children.getLast? = some cl →
        (c0.x - c0.w / 2 + (cl.x + cl.w / 2)) / 2 = p.x)) ∧
    (sizeTree 1 treeTwo).layout = .row ∧
    (positionNode (sizeTree 1 treeTwo) 0 0).children.map PTree.x = [-100, 100] ∧
    (-100 : ℚ) = -(100 : ℚ) ∧
    ((100 : ℚ) - CARD_WIDTH / 2) - (-100 + CARD_WIDTH / 2) = GAP_H := by
  constructor
  · intro p hp hrow
    rcases origin_of_mem r t 0 0 p hp with ⟨t1, x1, y1, rfl⟩
    rw [positionNode_layout] at hrow
    have h := row_node_facts r t1 x1 y1 hrow
    rw [positionNode_x, positionNode_y]
    exact h
  · refine ⟨?_, ?_, by norm_num, ?_⟩
    · with_unfolding_all decide
    · with_unfolding_all decide
    · rw [show (CARD_WIDTH : ℚ) = 180 from rfl, show (GAP_H : ℚ) = 20 from rfl]
      norm_num

/-- C4 witness: the Row facts instantiated at the two-leaf root. -/
theorem claim_C4_witness :
    (∀ c ∈ (positionNode (sizeTree 1 treeTwo) 0 0).children,
      c.y = (positionNode (sizeTree 1 treeTwo) 0 0).y + CARD_HEIGHT + GAP_V) ∧
    List.Chain' (fun a b => b.x = a.x + a.w / 2 + GAP_H + b.w / 2)
      (positionNode (sizeTree 1 treeTwo) 0 0).children ∧
    (∀ c0, (positionNode (sizeTree 1 treeTwo) 0 0).children.head? = some c0 →
      c0.x - c0.w / 2 = (positionNode (sizeTree 1 treeTwo) 0 0).x -
        packedW GAP_H ((positionNode (sizeTree 1 treeTwo) 0 0).children.map PTree.w) / 2) ∧
    (∀ c0 cl, (positionNode (sizeTree 1 treeTwo) 0 0).children.head? = some c0 →
      (positionNode (sizeTree 1 treeTwo) 0 0).children.getLast? = some cl →
      (c0.x - c0.w / 2 + (cl.x + cl.w / 2)) / 2 =
        (positionNode (sizeTree 1 treeTwo) 0 0).x) :=
  (claim_C4 1 treeTwo).1 (positionNode (sizeTree 1 treeTwo) 0 0)
    (by rw [allPNodes_eq]; exact List.mem_cons_self _ _)
    (by with_unfolding_all decide)

/-! ## Grid row shape -/

theorem chunksGo_nil {α : Type} (cols fuel : ℕ) : chunksGo (α := α) cols fuel [] = [] := by
  cases fuel <;> rfl

theorem chunksGo_lens {α : Type} (cols : ℕ) (hc : 1 ≤ cols) :
    ∀ (fuel : ℕ) (cs : List α), cs.length ≤ fuel →
    ∀ z ∈ lastFlags (chunksGo cols fuel cs),
      (z.1 = false → z.2.length = cols) ∧ 1 ≤ z.2.length ∧ z.2.length ≤ cols := by
  intro fuel
  induction fuel with
  | zero =>
    intro cs hf z hz
    cases cs with
    | nil => simp [chunksGo, lastFlags] at hz
    | cons c cs => simp at hf
  | succ fuel ih =>
    intro cs hf z hz
    cases cs with
    | nil => simp [chunksGo, lastFlags] at hz
    | cons c cs =>
      rw [chunksGo] at hz
      have hrowlen : (c :: cs.take (cols - 1)).length = 1 + min (cols - 1) cs.length := by
        simp [List.length_take]
        omega
      rcases eq_or_ne (chunksGo cols fuel (cs.drop (cols - 1))) [] with hrest | hrest
      · rw [hrest, lastFlags_single] at hz
        rcases List.mem_singleton.mp hz with rfl
        refine ⟨by intro h; simp at h, ?_, ?_⟩
        · simp
        · simp only [List.length_cons, List.length_take]
          omega
      · obtain ⟨row2, rest2, hrr⟩ : ∃ row2 rest2,
            chunksGo cols fuel (cs.drop (cols - 1)) = row2 :: rest2 := by
          cases hh : chunksGo cols fuel (cs.drop (cols - 1)) with
          | nil => exact absurd hh hrest
          | cons a b => exact ⟨a, b, rfl⟩
        rw [hrr, lastFlags_cons₂] at hz
        rcases List.mem_cons.mp hz with rfl | hz
        · -- a non-final grid row: the tail is nonempty, so the row is full
          have hdrop : cs.drop (cols - 1) ≠ [] := by
            intro hd
            rw [hd, chunksGo_nil] at hrr
            exact (List.cons_ne_nil _ _) hrr.symm
          have hlen2 : cols - 1 < cs.length := by
            by_contra hcon
            exact hdrop (List.drop_eq_nil_of_le (by omega))
          refine ⟨fun _ => ?_, by simp, ?_⟩
          · simp only [List.length_cons, List.length_take]
            omega
          · simp only [List.length_cons, List.length_take]
            omega
        · have hflen : (cs.drop (cols - 1)).length ≤ fuel := by
            simp only [List.length_drop]
            simp at hf
            omega
          have := ih (cs.drop (cols - 1)) hflen z (by rw [hrr]; exact hz)
          exact this

theorem gridCols_pos {n : ℕ} (hn : 1 ≤ n) : 1 ≤ gridCols n := by
  apply ceilSqrt_pos
  have h1 : (1 : ℚ) ≤ (n : ℚ) := by exact_mod_cast hn
  have h2 : (1 : ℚ) ≤ CARD_WIDTH / CARD_HEIGHT := by
    norm_num [CARD_WIDTH, CARD_HEIGHT]
  nlinarith

theorem lastFlags_map {α β : Type} (f : α → β) :
    ∀ l : List α, lastFlags (l.map f) = (lastFlags l).map (fun z => (z.1, f z.2)) := by
  intro l
  induction l with
  | nil => rfl
  | cons a rest ih =>
    cases rest with
    | nil => rfl
    | cons b rest2 =>
      have h1 : List.map f (a :: b :: rest2) = f a :: f b :: List.map f rest2 := rfl
      have h2 : f b :: List.map f rest2 = List.map f (b :: rest2) := rfl
      rw [h1, lastFlags_cons₂, h2, ih, lastFlags_cons₂, List.map_cons]

theorem splitLens_flatten {α : Type} :
    ∀ (lens : List ℕ) (l : List α), (splitLens lens l).flatten = l.take lens.sum := by
  intro lens
  induction lens with
  | nil => intro l; simp [splitLens]
  | cons n ns ih =>
    intro l
    rw [splitLens, List.flatten_cons, ih, List.sum_cons, List.take_add]

/-- C2: all-leaf parents with more than three children are classified Grid
with `cols = ceil(sqrt(count * W/H))`, and the children are partitioned in
order into consecutive rows of exactly `cols` (the final row possibly
shorter but nonempty); the row lengths sum to the child count. -/
theorem claim_C2 (r : ℚ) (i : ℕ) (cs : List OrgTree)
    (hleaf : ∀ c ∈ cs, c.children = []) (hcnt : 3 < cs.length) :
    (sizeTree r (.node i cs)).layout = .grid ∧
    gridCols cs.length =
      ⌈Real.sqrt (((cs.length : ℚ) * (CARD_WIDTH / CARD_HEIGHT) : ℚ) : ℝ)⌉₊ ∧
    (sizeTree r (.node i cs)).rowLens.sum = cs.length ∧
    (∀ z ∈ lastFlags (sizeTree r (.node i cs)).rowLens,
      (z.1 = false → z.2 = gridCols cs.length) ∧
      1 ≤ z.2 ∧ z.2 ≤ gridCols cs.length) ∧
    (splitLens (sizeTree r (.node i cs)).rowLens
        (sizeTree r (.node i cs)).children).flatten =
      (sizeTree r (.node i cs)).children := by
  have hne : cs.map (sizeTree r) ≠ [] := by
    intro h
    rw [List.map_eq_nil_iff] at h
    subst h
    simp at hcnt
  have hall : ∀ sc ∈ cs.map (sizeTree r), sc.children = [] := by
    intro sc hsc
    rcases List.mem_map.mp hsc with ⟨c, hc, rfl⟩
    rw [sizeTree_children, hleaf c hc]
    rfl
  have hlen : (cs.map (sizeTree r)).length = cs.length := by simp
  have hcnt2 : 3 < (cs.map (sizeTree r)).length := by rwa [hlen]
  have hEq := sizeNode_grid (r := r) (i := i) hne hall hcnt2
  have hcols : 1 ≤ gridCols (cs.map (sizeTree r)).length :=
    gridCols_pos (by omega)
  rw [sizeTree_node, hEq]
  simp only [Sized.layout, Sized.rowLens, Sized.children]
  have hflat : (chunks (gridCols (cs.map (sizeTree r)).length)
      (Sized.dims (cs.map (sizeTree r)))).flatten = Sized.dims (cs.map (sizeTree r)) :=
    chunks_flatten _
  refine ⟨by trivial, ?_, ?_, ?_, ?_⟩
  · unfold gridCols
    apply ceilSqrt_eq_ceil_sqrt
    have h1 : (0 : ℚ) ≤ (cs.length : ℚ) := by positivity
    have h2 : (0 : ℚ) ≤ CARD_WIDTH / CARD_HEIGHT := by norm_num [CARD_WIDTH, CARD_HEIGHT]
    exact mul_nonneg h1 h2
  · rw [← List.length_flatten, hflat]
    simp [Sized.dims, hlen]
  · intro z hz
    rw [lastFlags_map] at hz
    rcases List.mem_map.mp hz with ⟨z0, hz0, rfl⟩
    have h3 := chunksGo_lens (gridCols (cs.map (sizeTree r)).length) hcols
      (Sized.dims (cs.map (sizeTree r))).length (Sized.dims (cs.map (sizeTree r)))
      le_rfl z0 hz0
    rw [hlen] at h3
    simpa using h3
  · rw [splitLens_flatten]
    have hsum : ((chunks (gridCols (cs.map (sizeTree r)).length)
        (Sized.dims (cs.map (sizeTree r)))).map List.length).sum =
        (cs.map (sizeTree r)).length := by
      rw [← List.length_flatten, hflat]
      simp [Sized.dims]
    rw [hsum]
    exact List.take_length _

/-- C2 witness: the grid facts instantiated at five leaf children
(Scenario B); the row partition sizes sum to 5. -/
theorem claim_C2_witness :
    (sizeTree 1 treeFive).layout = .grid ∧
    gridCols 5 = ⌈Real.sqrt (((5 : ℚ) * (CARD_WIDTH / CARD_HEIGHT) : ℚ) : ℝ)⌉₊ ∧
    (sizeTree 1 treeFive).rowLens.sum = 5 ∧
    (∀ z ∈ lastFlags (sizeTree 1 treeFive).rowLens,
      (z.1 = false → z.2 = gridCols 5) ∧ 1 ≤ z.2 ∧ z.2 ≤ gridCols 5) ∧
    (splitLens (sizeTree 1 treeFive).rowLens (sizeTree 1 treeFive).children).flatten =
      (sizeTree 1 treeFive).children := by
  have h := claim_C2 1 0 [leafT 1, leafT 2, leafT 3, leafT 4, leafT 5]
    (by
      intro c hc
      simp only [List.mem_cons] at hc
      rcases hc with rfl | rfl | rfl | rfl | rfl | h
      · rfl
      · rfl
      · rfl
      · rfl
      · rfl
      · simp at h)
    (by norm_num)
  exact h

/-! ## Rows of positioned children -/

theorem zipWith_eq_map_zip {α β γ : Type} (f : α → β → γ) :
    ∀ (l1 : List α) (l2 : List β),
      List.zipWith f l1 l2 = (l1.zip l2).map fun z => f z.1 z.2 := by
  intro l1
  induction l1 with
  | nil => intro l2; simp
  | cons a l1 ih =>
    intro l2
    cases l2 with
    | nil => simp
    | cons b l2 => simp [ih]

theorem positionList_append (cs1 cs2 : List Sized) (ps1 ps2 : List (ℚ × ℚ))
    (hlen : ps1.length = cs1.length) :
    positionList (cs1 ++ cs2) (ps1 ++ ps2) =
      positionList cs1 ps1 ++ positionList cs2 ps2 := by
  rw [positionList_eq_zipWith, positionList_eq_zipWith, positionList_eq_zipWith]
  rw [List.zipWith_append _ _ _ _ _ hlen.symm]

theorem splitLens_map {α β : Type} (f : α → β) :
    ∀ (lens : List ℕ) (l : List α),
      splitLens lens (l.map f) = (splitLens lens l).map (List.map f) := by
  intro lens
  induction lens with
  | nil => intro l; rfl
  | cons n ns ih =>
    intro l
    rw [splitLens, splitLens, List.map_cons, ← List.map_take, ← List.map_drop, ih]

theorem splitLens_positionList {rows : List (List Sized)} {prows : List (List (ℚ × ℚ))}
    (hlen : List.Forall₂ (fun a b => b.length = a.length) rows prows) :
    splitLens (rows.map List.length) (positionList rows.flatten prows.flatten) =
      List.zipWith (fun a b => positionList a b) rows prows := by
  induction hlen with
  | nil => rfl
  | @cons a b as bs h hrest ih =>
    rw [List.flatten_cons, List.flatten_cons, positionList_append _ _ _ _ h,
      List.map_cons, splitLens, List.zipWith_cons_cons]
    have hl : (positionList a b).length = a.length := positionList_length h
    rw [List.take_left' hl, List.drop_left' hl, ih]

theorem positionList_pairwise_mem :
    ∀ (cs : List Sized) (ps : List (ℚ × ℚ))
      {S : PTree → PTree → Prop}
      {T : ((ℚ × ℚ) × (ℚ × ℚ)) → ((ℚ × ℚ) × (ℚ × ℚ)) → Prop},
      (∀ c1 p1 c2 p2, c1 ∈ cs → c2 ∈ cs → T (Sized.dim c1, p1) (Sized.dim c2, p2) →
        S (positionNode c1 p1.1 p1.2) (positionNode c2 p2.1 p2.2)) →
      ((Sized.dims cs).zip ps).Pairwise T → (positionList cs ps).Pairwise S := by
  intro cs
  induction cs with
  | nil => intro ps S T hST h; simp [positionList]
  | cons c cs ih =>
    intro ps S T hST h
    cases ps with
    | nil => rw [positionList_nil_right]; exact List.Pairwise.nil
    | cons p ps =>
      rw [show positionList (c :: cs) (p :: ps) =
        positionNode c p.1 p.2 :: positionList cs ps from rfl]
      have hzip : (Sized.dims (c :: cs)).zip (p :: ps) =
          (Sized.dim c, p) :: (Sized.dims cs).zip ps := rfl
      rw [hzip, List.pairwise_cons] at h
      rw [List.pairwise_cons]
      constructor
      · intro b hb
        rcases mem_positionList hb with ⟨z, hz, rfl⟩
        exact hST c p z.1 z.2 (List.mem_cons_self _ _)
          (List.mem_cons_of_mem _ (List.of_mem_zip hz).1)
          (h.1 (Sized.dim z.1, z.2) (mem_zip_map_left Sized.dim hz))
      · exact ih ps (fun c1 p1 c2 p2 h1 h2 hT =>
          hST c1 p1 c2 p2 (List.mem_cons_of_mem _ h1) (List.mem_cons_of_mem _ h2) hT)
          h.2

theorem forall₂_len {α β : Type} :
    ∀ (l1 : List (List α)) (l2 : List (List β)),
      l1.map List.length = l2.map List.length →
      List.Forall₂ (fun a b => b.length = a.length) l1 l2 := by
  intro l1
  induction l1 with
  | nil =>
    intro l2 h
    cases l2 with
    | nil => exact List.Forall₂.nil
    | cons b l2 => simp at h
  | cons a l1 ih =>
    intro l2 h
    cases l2 with
    | nil => simp at h
    | cons b l2 =>
      simp only [List.map_cons, List.cons.injEq] at h
      exact List.Forall₂.cons h.1.symm (ih l2 h.2)

/-- Children of a Grid/Wrap node, grouped back into their rows, are
pairwise horizontally disjoint (by strictly more than the card width)
within each row. -/
theorem gridwrap_rows_pairwise (gap vGap x cy : ℚ) (scs : List Sized)
    (rows0 : List (List (ℚ × ℚ))) (hgap : GRID_GAP ≤ gap)
    (hflat : rows0.flatten = Sized.dims scs)
    (hw : ∀ c ∈ scs, CARD_WIDTH ≤ c.w) :
    ∀ row ∈ splitLens (rows0.map List.length)
        (positionList scs (placeRows gap vGap x rows0 cy).flatten),
      row.Pairwise (fun u v => u.x + CARD_WIDTH / 2 < v.x - CARD_WIDTH / 2) := by
  have hlensum : (rows0.map List.length).sum = scs.length := by
    rw [← List.length_flatten, hflat]
    simp [Sized.dims]
  have hflatS : (splitLens (rows0.map List.length) scs).flatten = scs := by
    rw [splitLens_flatten, hlensum, List.take_length]
  have hmapdims : (splitLens (rows0.map List.length) scs).map (List.map Sized.dim) =
      rows0 := by
    have h1 : splitLens (rows0.map List.length) (Sized.dims scs) = rows0 :=
      splitLens_recover hflat
    have h2 : splitLens (rows0.map List.length) (scs.map Sized.dim) =
        (splitLens (rows0.map List.length) scs).map (List.map Sized.dim) :=
      splitLens_map Sized.dim _ scs
    rw [← h2]
    exact h1
  have hlens : (splitLens (rows0.map List.length) scs).map List.length =
      rows0.map List.length := by
    conv_rhs => rw [← hmapdims]
    rw [List.map_map]
    symm
    apply List.map_congr_left
    intro a _
    simp
  have hprowlens : (placeRows gap vGap x rows0 cy).map List.length =
      rows0.map List.length := placeRows_lengths gap vGap x rows0 cy
  have hF2 : List.Forall₂ (fun a b => b.length = a.length)
      (splitLens (rows0.map List.length) scs) (placeRows gap vGap x rows0 cy) :=
    forall₂_len _ _ (hlens.trans hprowlens.symm)
  have hsplit : splitLens (rows0.map List.length)
      (positionList scs (placeRows gap vGap x rows0 cy).flatten) =
      List.zipWith (fun a b => positionList a b)
        (splitLens (rows0.map List.length) scs) (placeRows gap vGap x rows0 cy) := by
    have h := splitLens_positionList hF2
    rw [hlens, hflatS] at h
    exact h
  intro row hrow
  rw [hsplit, zipWith_eq_map_zip] at hrow
  rcases List.mem_map.mp hrow with ⟨zz, hzz, rfl⟩
  have hzz1 : ∀ c ∈ zz.1, c ∈ scs := by
    intro c hc
    rw [← hflatS]
    exact List.mem_flatten.mpr ⟨zz.1, (List.of_mem_zip hzz).1, hc⟩
  have hdimszz : (zz.1.map Sized.dim, zz.2) ∈
      rows0.zip (placeRows gap vGap x rows0 cy) := by
    have h := mem_zip_map_left (List.map Sized.dim) hzz
    rw [hmapdims] at h
    exact h
  have hw0 : ∀ row2 ∈ rows0, ∀ d ∈ row2, 0 ≤ d.1 := by
    intro row2 hrow2 d hd
    have : d ∈ Sized.dims scs := by
      rw [← hflat]
      exact List.mem_flatten.mpr ⟨row2, hrow2, hd⟩
    rcases List.mem_map.mp this with ⟨c, hc, rfl⟩
    have := hw c hc
    have hWnn : (0 : ℚ) ≤ CARD_WIDTH := by norm_num [CARD_WIDTH]
    have hdc : (Sized.dim c).1 = c.w := rfl
    rw [hdc]
    linarith
  have hpw := placeRows_zip_pairwise x cy hgap hw0 (zz.1.map Sized.dim, zz.2) hdimszz
  refine positionList_pairwise_mem zz.1 zz.2 ?_ hpw
  intro c1 p1 c2 p2 h1 h2 hT
  have hw1 := hw c1 (hzz1 c1 h1)
  have hw2 := hw c2 (hzz1 c2 h2)
  rw [positionNode_x, positionNode_x]
  have hd1 : (Sized.dim c1).1 = c1.w := rfl
  have hd2 : (Sized.dim c2).1 = c2.w := rfl
  rw [hd1, hd2] at hT
  have hGG : (0 : ℚ) < GRID_GAP := by norm_num [GRID_GAP]
  linarith

theorem rows_of_leaf {p : PTree} (h : p.layout = .leaf) : p.rows = [] := by
  cases p with
  | mk i x y w h0 l lens cs =>
    have h2 : l = .leaf := h
    subst h2
    rfl

theorem rows_of_row {p : PTree} (h : p.layout = .row) : p.rows = [p.children] := by
  cases p with
  | mk i x y w h0 l lens cs =>
    have h2 : l = .row := h
    subst h2
    rfl

theorem rows_of_grid {p : PTree} (h : p.layout = .grid) :
    p.rows = splitLens p.rowLens p.children := by
  cases p with
  | mk i x y w h0 l lens cs =>
    have h2 : l = .grid := h
    subst h2
    rfl

theorem rows_of_wrap {p : PTree} (h : p.layout = .wrap) :
    p.rows = splitLens p.rowLens p.children := by
  cases p with
  | mk i x y w h0 l lens cs =>
    have h2 : l = .wrap := h
    subst h2
    rfl

/-- A Row node's single row of positioned children is pairwise disjoint. -/
theorem rows_pairwise_rowcase (s : Sized) (x y : ℚ) (h : s.layout = .row)
    (hw : ∀ c ∈ s.children, CARD_WIDTH ≤ c.w) :
    ∀ row ∈ (positionNode s x y).rows,
      row.Pairwise (fun u v => u.x + CARD_WIDTH / 2 < v.x - CARD_WIDTH / 2) := by
  intro row hrow
  rw [rows_of_row (by rw [positionNode_layout, h]), positionNode_children, h,
      placements_row] at hrow
  rcases List.mem_singleton.mp hrow with rfl
  have hd0 : ∀ d ∈ Sized.dims s.children, 0 ≤ d.1 := by
    intro d hd
    rcases List.mem_map.mp hd with ⟨c, hc, rfl⟩
    have := hw c hc
    have hWnn : (0 : ℚ) ≤ CARD_WIDTH := by norm_num [CARD_WIDTH]
    have hdc : (Sized.dim c).1 = c.w := rfl
    rw [hdc]
    linarith
  refine positionList_pairwise_mem s.children _ ?_
    (packRow_zip_pairwise _ _ (by norm_num [GAP_H]) hd0)
  intro c1 p1 c2 p2 h1 h2 hT
  rw [positionNode_x, positionNode_x]
  have hw1 := hw c1 h1
  have hw2 := hw c2 h2
  have hd1 : (Sized.dim c1).1 = c1.w := rfl
  have hd2 : (Sized.dim c2).1 = c2.w := rfl
  rw [hd1, hd2] at hT
  have hGH : (0 : ℚ) < GAP_H := by norm_num [GAP_H]
  linarith

/-- A Grid or Wrap node's rows of positioned children are pairwise
disjoint within each row. -/
theorem rows_pairwise_gridwrap (s : Sized) (x y : ℚ) (gap vGap : ℚ)
    (rows0 : List (List (ℚ × ℚ)))
    (hlay : (s.layout = .grid ∧ gap = GRID_GAP ∧ vGap = GRID_GAP) ∨
      (s.layout = .wrap ∧ gap = GAP_H ∧ vGap = GAP_V))
    (hlens : s.rowLens = rows0.map List.length)
    (hflat : rows0.flatten = Sized.dims s.children)
    (hw : ∀ c ∈ s.children, CARD_WIDTH ≤ c.w) :
    ∀ row ∈ (positionNode s x y).rows,
      row.Pairwise (fun u v => u.x + CARD_WIDTH / 2 < v.x - CARD_WIDTH / 2) := by
  have hrec : splitLens s.rowLens (Sized.dims s.children) = rows0 := by
    rw [hlens]
    exact splitLens_recover hflat
  rcases hlay with ⟨h, hg, hv⟩ | ⟨h, hg, hv⟩
  · intro row hrow
    rw [rows_of_grid (by rw [positionNode_layout, h]), positionNode_rowLens,
        positionNode_children, h, placements_grid, hrec, hlens] at hrow
    exact gridwrap_rows_pairwise GRID_GAP GRID_GAP x (y + CARD_HEIGHT + GAP_V)
      s.children rows0 le_rfl hflat hw row hrow
  · intro row hrow
    rw [rows_of_wrap (by rw [positionNode_layout, h]), positionNode_rowLens,
        positionNode_children, h, placements_wrap, hrec, hlens] at hrow
    exact gridwrap_rows_pairwise GAP_H GAP_V x (y + CARD_HEIGHT + GAP_V)
      s.children rows0 (by norm_num [GRID_GAP, GAP_H]) hflat hw row hrow

/-- Every row of a sized-and-positioned node is pairwise disjoint. -/
theorem node_rows_pairwise (r : ℚ) (t1 : OrgTree) (x y : ℚ) :
    ∀ row ∈ (positionNode (sizeTree r t1) x y).rows,
      row.Pairwise (fun u v => u.x + CARD_WIDTH / 2 < v.x - CARD_WIDTH / 2) := by
  cases t1 with
  | node i ts =>
    rw [sizeTree_node]
    have hw : ∀ c ∈ ts.map (sizeTree r), CARD_WIDTH ≤ c.w := by
      intro c hc
      rcases List.mem_map.mp hc with ⟨t0, _, rfl⟩
      exact sizeTree_w_ge r t0
    rcases eq_or_ne (ts.map (sizeTree r)) [] with hnil | hne
    · rw [hnil, sizeNode_nil]
      intro row hrow
      rw [rows_of_leaf (by rw [positionNode_layout]; rfl)] at hrow
      simp at hrow
    · rcases sizeNode_three_cases r i (ts.map (sizeTree r)) hne with
        ⟨_, _, hEq⟩ | ⟨_, _, _, hEq⟩ | ⟨_, _, hEq⟩
      · rw [hEq]
        exact rows_pairwise_gridwrap _ x y GRID_GAP GRID_GAP
          (chunks (gridCols (ts.map (sizeTree r)).length)
            (Sized.dims (ts.map (sizeTree r))))
          (Or.inl ⟨rfl, rfl, rfl⟩) rfl (chunks_flatten _) hw
      · rw [hEq]
        exact rows_pairwise_gridwrap _ x y GAP_H GAP_V
          (wrapLoop (wrapCap r (Sized.dims (ts.map (sizeTree r)))) [] [] 0
            (Sized.dims (ts.map (sizeTree r))))
          (Or.inr ⟨rfl, rfl, rfl⟩) rfl
          (by rw [wrapLoop_flatten]; rfl) hw
      · rw [hEq]
        exact rows_pairwise_rowcase _ x y rfl hw

/-- C1: for every tree and every aspect ratio r > 0, after sizing and
positioning, any two sibling cards placed in the same row have disjoint
horizontal card intervals [x - W/2, x + W/2]. -/
theorem claim_C1 (r : ℚ) (hr : 0 < r) (t : OrgTree) :
    ∀ p ∈ allPNodes (positionNode (sizeTree r t) 0 0),
      ∀ row ∈ p.rows, row.Pairwise (fun u v =>
        u.x + CARD_WIDTH / 2 < v.x - CARD_WIDTH / 2 ∨
        v.x + CARD_WIDTH / 2 < u.x - CARD_WIDTH / 2) := by
  intro p hp
  rcases origin_of_mem r t 0 0 p hp with ⟨t1, x1, y1, rfl⟩
  intro row hrow
  exact (node_rows_pairwise r t1 x1 y1 row hrow).imp (fun h => Or.inl h)

theorem claim_C1_witness :
    (0 : ℚ) < 1 ∧
      ∀ row ∈ (positionNode (sizeTree 1 treeTwo) 0 0).rows,
        row.Pairwise (fun u v =>
          u.x + CARD_WIDTH / 2 < v.x - CARD_WIDTH / 2 ∨
          v.x + CARD_WIDTH / 2 < u.x - CARD_WIDTH / 2) :=
  ⟨by norm_num,
    claim_C1 1 (by norm_num) treeTwo _
      (self_mem_allPNodes (positionNode (sizeTree 1 treeTwo) 0 0))⟩

theorem splitLens_dims_recover (scs : List Sized) (rows0 : List (List (ℚ × ℚ)))
    (hflat : rows0.flatten = Sized.dims scs) :
    (splitLens (rows0.map List.length) scs).map (List.map Sized.dim) = rows0 := by
  have h1 : splitLens (rows0.map List.length) (Sized.dims scs) = rows0 :=
    splitLens_recover hflat
  have h2 : splitLens (rows0.map List.length) (scs.map Sized.dim) =
      (splitLens (rows0.map List.length) scs).map (List.map Sized.dim) :=
    splitLens_map Sized.dim _ scs
  rw [← h2]
  exact h1

theorem splitLens_scs_lengths (scs : List Sized) (rows0 : List (List (ℚ × ℚ)))
    (hflat : rows0.flatten = Sized.dims scs) :
    (splitLens (rows0.map List.length) scs).map List.length = rows0.map List.length := by
  conv_rhs => rw [← splitLens_dims_recover scs rows0 hflat]
  rw [List.map_map]
  symm
  apply List.map_congr_left
  intro a _
  simp

theorem splitLens_scs_flatten (scs : List Sized) (rows0 : List (List (ℚ × ℚ)))
    (hflat : rows0.flatten = Sized.dims scs) :
    (splitLens (rows0.map List.length) scs).flatten = scs := by
  have hlensum : (rows0.map List.length).sum = scs.length := by
    rw [← List.length_flatten, hflat]
    simp [Sized.dims]
  rw [splitLens_flatten, hlensum, List.take_length]

theorem splitLens_positionList_placeRows (gap vGap x cy : ℚ) (scs : List Sized)
    (rows0 : List (List (ℚ × ℚ))) (hflat : rows0.flatten = Sized.dims scs) :
    splitLens (rows0.map List.length)
      (positionList scs (placeRows gap vGap x rows0 cy).flatten) =
      List.zipWith (fun a b => positionList a b)
        (splitLens (rows0.map List.length) scs)
        (placeRows gap vGap x rows0 cy) := by
  have hF2 : List.Forall₂ (fun a b => b.length = a.length)
      (splitLens (rows0.map List.length) scs) (placeRows gap vGap x rows0 cy) :=
    forall₂_len _ _ ((splitLens_scs_lengths scs rows0 hflat).trans
      (placeRows_lengths gap vGap x rows0 cy).symm)
  have h := splitLens_positionList hF2
  rw [splitLens_scs_lengths scs rows0 hflat, splitLens_scs_flatten scs rows0 hflat] at h
  exact h

theorem forall₂_map {α β : Type} (f : α → β) :
    ∀ l : List α, List.Forall₂ (fun b a => f a = b) (l.map f) l := by
  intro l
  induction l with
  | nil => exact List.Forall₂.nil
  | cons a l ih => exact List.Forall₂.cons rfl ih

theorem lastFlags_zip_zipWith :
    ∀ (rows0 : List (List (ℚ × ℚ))) (srows : List (List Sized))
      (prows : List (List (ℚ × ℚ))),
      List.Forall₂ (fun row cs => Sized.dims cs = row) rows0 srows →
      ∀ z ∈ (lastFlags rows0).zip
        (List.zipWith (fun a b => positionList a b) srows prows),
        ∃ cs pr, z.2 = positionList cs pr ∧ Sized.dims cs = z.1.2 ∧
          (z.1, pr) ∈ (lastFlags rows0).zip prows := by
  intro rows0
  induction rows0 with
  | nil => intro srows prows hF z hz; simp [lastFlags] at hz
  | cons a rest ih =>
    intro srows prows hF z hz
    cases hF with
    | cons h1 h2 =>
      rename_i cs srest
      cases rest with
      | nil =>
        cases h2
        cases prows with
        | nil => simp at hz
        | cons pr prest =>
          rw [lastFlags_single,
            show List.zipWith (fun a b => positionList a b) [cs] (pr :: prest) =
              [positionList cs pr] from rfl, List.zip_cons_cons] at hz
          rcases List.mem_cons.mp hz with rfl | hz
          · exact ⟨cs, pr, rfl, h1, by
              rw [lastFlags_single, List.zip_cons_cons]
              exact List.mem_cons_self _ _⟩
          · simp at hz
      | cons b rest2 =>
        cases prows with
        | nil => simp at hz
        | cons pr prest =>
          rw [lastFlags_cons₂,
            show List.zipWith (fun a b => positionList a b) (cs :: srest) (pr :: prest) =
              positionList cs pr ::
                List.zipWith (fun a b => positionList a b) srest prest from rfl,
            List.zip_cons_cons] at hz
          rcases List.mem_cons.mp hz with rfl | hz
          · exact ⟨cs, pr, rfl, h1, by
              rw [lastFlags_cons₂, List.zip_cons_cons]
              exact List.mem_cons_self _ _⟩
          · obtain ⟨cs2, pr2, he, hd, hm⟩ := ih srest prest h2 z hz
            exact ⟨cs2, pr2, he, hd, by
              rw [lastFlags_cons₂, List.zip_cons_cons]
              exact List.mem_cons_of_mem _ hm⟩

theorem dims_take (cs : List Sized) (n : ℕ) :
    Sized.dims (cs.take n) = (Sized.dims cs).take n := by
  simp [Sized.dims, List.map_take]

theorem dims_drop (cs : List Sized) (n : ℕ) :
    Sized.dims (cs.drop n) = (Sized.dims cs).drop n := by
  simp [Sized.dims, List.map_drop]

/-- Geometry of one positioned split row: the left half ends at the left
channel edge, the right half starts at the right channel edge. -/
theorem placeSplitRow_positionList_geometry (gap x cyj : ℚ) (cs : List Sized)
    (drow : List (ℚ × ℚ)) (hdims : Sized.dims cs = drow) :
    (∀ cl, ((positionList cs (placeSplitRow gap x cyj drow)).take
        (midOf drow.length)).getLast? = some cl →
      cl.x + cl.w / 2 = x - CHANNEL_WIDTH / 2) ∧
    (∀ ch, ((positionList cs (placeSplitRow gap x cyj drow)).drop
        (midOf drow.length)).head? = some ch →
      ch.x - ch.w / 2 = x + CHANNEL_WIDTH / 2) := by
  subst hdims
  set m := midOf (Sized.dims cs).length with hm
  have hmle : m ≤ cs.length := by
    rw [hm]
    have hlen : (Sized.dims cs).length = cs.length := by simp [Sized.dims]
    rw [hlen]
    simp only [midOf]
    omega
  rw [placeSplitRow_eq, ← hm, ← dims_take, ← dims_drop]
  have hlenA : (packRow gap
      (x - CHANNEL_WIDTH / 2 - packedW gap ((Sized.dims (cs.take m)).map Prod.fst))
      cyj (Sized.dims (cs.take m))).length = (cs.take m).length := by
    rw [packRow_length]
    simp [Sized.dims]
  have hpos := positionList_append (cs.take m) (cs.drop m)
    (packRow gap
      (x - CHANNEL_WIDTH / 2 - packedW gap ((Sized.dims (cs.take m)).map Prod.fst))
      cyj (Sized.dims (cs.take m)))
    (packRow gap (x + CHANNEL_WIDTH / 2) cyj (Sized.dims (cs.drop m))) hlenA
  rw [List.take_append_drop] at hpos
  rw [hpos]
  have hlenP1 : (positionList (cs.take m)
      (packRow gap
        (x - CHANNEL_WIDTH / 2 - packedW gap ((Sized.dims (cs.take m)).map Prod.fst))
        cyj (Sized.dims (cs.take m)))).length = m := by
    rw [positionList_length hlenA, List.length_take]
    omega
  rw [List.take_left' hlenP1, List.drop_left' hlenP1]
  constructor
  · intro cl hcl
    rcases eq_or_ne (cs.take m) [] with he | hne
    · rw [he] at hcl
      simp [positionList] at hcl
    · have h := positionList_packRow_last gap
        (x - CHANNEL_WIDTH / 2 - packedW gap ((Sized.dims (cs.take m)).map Prod.fst))
        cyj (cs.take m) cl hne hcl
      linarith
  · intro ch hch
    exact positionList_packRow_head gap (x + CHANNEL_WIDTH / 2) cyj (cs.drop m) ch hch

theorem rows_positionNode_gridwrap (s : Sized) (x y gap vGap : ℚ)
    (rows0 : List (List (ℚ × ℚ)))
    (hlay : (s.layout = .grid ∧ gap = GRID_GAP ∧ vGap = GRID_GAP) ∨
      (s.layout = .wrap ∧ gap = GAP_H ∧ vGap = GAP_V))
    (hlens : s.rowLens = rows0.map List.length)
    (hflat : rows0.flatten = Sized.dims s.children) :
    (positionNode s x y).rows =
      List.zipWith (fun a b => positionList a b)
        (splitLens (rows0.map List.length) s.children)
        (placeRows gap vGap x rows0 (y + CARD_HEIGHT + GAP_V)) := by
  have hrec : splitLens s.rowLens (Sized.dims s.children) = rows0 := by
    rw [hlens]
    exact splitLens_recover hflat
  rcases hlay with ⟨h, hg, hv⟩ | ⟨h, hg, hv⟩
  · subst hg; subst hv
    rw [rows_of_grid (by rw [positionNode_layout, h]), positionNode_rowLens,
        positionNode_children, h, placements_grid, hrec, hlens]
    exact splitLens_positionList_placeRows _ _ _ _ _ _ hflat
  · subst hg; subst hv
    rw [rows_of_wrap (by rw [positionNode_layout, h]), positionNode_rowLens,
        positionNode_children, h, placements_wrap, hrec, hlens]
    exact splitLens_positionList_placeRows _ _ _ _ _ _ hflat

/-- Node-level geometry of a Grid/Wrap node's positioned rows: a lone last
child sits at the parent's x; otherwise the left half ends at
`x - CHANNEL_WIDTH/2` and the right half starts at `x + CHANNEL_WIDTH/2`. -/
theorem gridwrap_geometry (s : Sized) (x y gap vGap : ℚ)
    (rows0 : List (List (ℚ × ℚ)))
    (hlay : (s.layout = .grid ∧ gap = GRID_GAP ∧ vGap = GRID_GAP) ∨
      (s.layout = .wrap ∧ gap = GAP_H ∧ vGap = GAP_V))
    (hlens : s.rowLens = rows0.map List.length)
    (hflat : rows0.flatten = Sized.dims s.children) :
    ∀ zz ∈ (lastFlags rows0).zip (positionNode s x y).rows,
      (zz.1.1 = true ∧ zz.1.2.length = 1 → ∃ c, zz.2 = [c] ∧ c.x = x) ∧
      (¬(zz.1.1 = true ∧ zz.1.2.length = 1) →
        (∀ cl, (zz.2.take (midOf zz.1.2.length)).getLast? = some cl →
          cl.x + cl.w / 2 = x - CHANNEL_WIDTH / 2) ∧
        (∀ ch, (zz.2.drop (midOf zz.1.2.length)).head? = some ch →
          ch.x - ch.w / 2 = x + CHANNEL_WIDTH / 2)) := by
  intro zz hzz
  rw [rows_positionNode_gridwrap s x y gap vGap rows0 hlay hlens hflat] at hzz
  have hF : List.Forall₂ (fun row cs => Sized.dims cs = row) rows0
      (splitLens (rows0.map List.length) s.children) := by
    have h0 := forall₂_map (List.map Sized.dim)
      (splitLens (rows0.map List.length) s.children)
    rw [splitLens_dims_recover s.children rows0 hflat] at h0
    exact h0
  obtain ⟨cs, pr, hz2, hdims, hmem⟩ := lastFlags_zip_zipWith rows0 _ _ hF zz hzz
  obtain ⟨cyj, hpr⟩ :=
    placeRows_with_flags gap vGap x rows0 (y + CARD_HEIGHT + GAP_V) (zz.1, pr) hmem
  dsimp only at hpr
  constructor
  · intro hlone
    rw [if_pos hlone] at hpr
    have hlen1 : cs.length = 1 := by
      have hl : (Sized.dims cs).length = zz.1.2.length := by rw [hdims]
      simp only [Sized.dims, List.length_map] at hl
      rw [hl, hlone.2]
    obtain ⟨c0, hc0⟩ := List.length_eq_one.mp hlen1
    refine ⟨positionNode c0 x cyj, ?_, positionNode_x c0 x cyj⟩
    rw [hz2, hpr, hc0]
    rfl
  · intro hnl
    rw [if_neg hnl] at hpr
    rw [hz2, hpr]
    exact placeSplitRow_positionList_geometry gap x cyj cs zz.1.2 hdims

/-- The contribution of one flagged row to `maxRowW`, unfolded: a lone last
row contributes the single child's width, any other row its symmetric
split width. -/
theorem rowContrib_cases (gap : ℚ) (isLast : Bool) (row : List (ℚ × ℚ)) :
    (∀ c, isLast = true → row = [c] → rowContrib gap isLast row = c.1) ∧
    (¬(isLast = true ∧ row.length = 1) →
      rowContrib gap isLast row =
        2 * max (packedW gap ((row.take (midOf row.length)).map Prod.fst) +
            CHANNEL_WIDTH / 2)
          (packedW gap ((row.drop (midOf row.length)).map Prod.fst) +
            CHANNEL_WIDTH / 2)) := by
  constructor
  · intro c hl hr
    subst hl
    subst hr
    exact rowContrib_true_single gap c
  · intro hnl
    have h : rowContrib gap isLast row = symmetricRowWidth gap row := by
      cases isLast with
      | false => exact rowContrib_false gap row
      | true =>
        refine rowContrib_true_ne_single ?_
        intro hlen
        exact hnl ⟨rfl, hlen⟩
    rw [h, symmetricRowWidth_eq]

/-- C5: for every Grid or Wrap parent, with the layout's own gap: the
parent's width is the max of the card width and the per-row contributions,
where a row (except a lone-child last row, which contributes the child's
own width) is split at ceil(n/2) and contributes
2*max(leftPacked + C/2, rightPacked + C/2); and in positioning, a lone
last-row child is placed at the parent's x, while otherwise the left half
is packed to end at parentX - C/2 and the right half starts at
parentX + C/2. -/
theorem claim_C5 (r : ℚ) (t : OrgTree) (x y gap : ℚ)
    (hlay : ((sizeTree r t).layout = .grid ∧ gap = GRID_GAP) ∨
      ((sizeTree r t).layout = .wrap ∧ gap = GAP_H)) :
    (sizeTree r t).w = max CARD_WIDTH (maxList (rowContribs gap
      (splitLens (sizeTree r t).rowLens (Sized.dims (sizeTree r t).children)))) ∧
    (∀ fr ∈ lastFlags (splitLens (sizeTree r t).rowLens
        (Sized.dims (sizeTree r t).children)),
      (∀ c, fr.1 = true → fr.2 = [c] → rowContrib gap fr.1 fr.2 = c.1) ∧
      (¬(fr.1 = true ∧ fr.2.length = 1) →
        rowContrib gap fr.1 fr.2 =
          2 * max (packedW gap ((fr.2.take (midOf fr.2.length)).map Prod.fst) +
              CHANNEL_WIDTH / 2)
            (packedW gap ((fr.2.drop (midOf fr.2.length)).map Prod.fst) +
              CHANNEL_WIDTH / 2))) ∧
    (∀ zz ∈ (lastFlags (splitLens (sizeTree r t).rowLens
        (Sized.dims (sizeTree r t).children))).zip
          (positionNode (sizeTree r t) x y).rows,
      (zz.1.1 = true ∧ zz.1.2.length = 1 → ∃ c, zz.2 = [c] ∧ c.x = x) ∧
      (¬(zz.1.1 = true ∧ zz.1.2.length = 1) →
        (∀ cl, (zz.2.take (midOf zz.1.2.length)).getLast? = some cl →
          cl.x + cl.w / 2 = x - CHANNEL_WIDTH / 2) ∧
        (∀ ch, (zz.2.drop (midOf zz.1.2.length)).head? = some ch →
          ch.x - ch.w / 2 = x + CHANNEL_WIDTH / 2))) := by
  cases t with
  | node i ts =>
    rw [sizeTree_node] at hlay ⊢
    rcases eq_or_ne (ts.map (sizeTree r)) [] with hnil | hne
    · rw [hnil, sizeNode_nil] at hlay
      rcases hlay with ⟨hl, _⟩ | ⟨hl, _⟩ <;> simp [Sized.layout] at hl
    · rcases sizeNode_three_cases r i (ts.map (sizeTree r)) hne with
        ⟨_, _, hEq⟩ | ⟨_, _, _, hEq⟩ | ⟨_, _, hEq⟩
      · -- Grid
        have hlayS : (sizeNode r i (ts.map (sizeTree r))).layout = .grid := by
          rw [hEq]
          rfl
        have hgap : gap = GRID_GAP := by
          rcases hlay with ⟨_, hg⟩ | ⟨hl, _⟩
          · exact hg
          · rw [hlayS] at hl
            simp at hl
        subst hgap
        set rows0 := chunks (gridCols (ts.map (sizeTree r)).length)
          (Sized.dims (ts.map (sizeTree r))) with hrows0
        have hlens : (sizeNode r i (ts.map (sizeTree r))).rowLens =
            rows0.map List.length := by
          rw [hEq]
          rfl
        have hchil : (sizeNode r i (ts.map (sizeTree r))).children =
            ts.map (sizeTree r) := by
          rw [hEq]
          rfl
        have hflat : rows0.flatten =
            Sized.dims (sizeNode r i (ts.map (sizeTree r))).children := by
          rw [hchil, hrows0]
          exact chunks_flatten _
        have hrec : splitLens (sizeNode r i (ts.map (sizeTree r))).rowLens
            (Sized.dims (sizeNode r i (ts.map (sizeTree r))).children) = rows0 := by
          rw [hlens]
          exact splitLens_recover hflat
        refine ⟨?_, fun fr _ => rowContrib_cases GRID_GAP fr.1 fr.2, ?_⟩
        · rw [hrec, hEq]
          rfl
        · rw [hrec]
          exact gridwrap_geometry _ x y GRID_GAP GRID_GAP rows0
            (Or.inl ⟨hlayS, rfl, rfl⟩) hlens hflat
      · -- Wrap
        have hlayS : (sizeNode r i (ts.map (sizeTree r))).layout = .wrap := by
          rw [hEq]
          rfl
        have hgap : gap = GAP_H := by
          rcases hlay with ⟨hl, _⟩ | ⟨_, hg⟩
          · rw [hlayS] at hl
            simp at hl
          · exact hg
        subst hgap
        set rows0 := wrapLoop (wrapCap r (Sized.dims (ts.map (sizeTree r)))) [] [] 0
          (Sized.dims (ts.map (sizeTree r))) with hrows0
        have hlens : (sizeNode r i (ts.map (sizeTree r))).rowLens =
            rows0.map List.length := by
          rw [hEq]
          rfl
        have hchil : (sizeNode r i (ts.map (sizeTree r))).children =
            ts.map (sizeTree r) := by
          rw [hEq]
          rfl
        have hflat : rows0.flatten =
            Sized.dims (sizeNode r i (ts.map (sizeTree r))).children := by
          rw [hchil, hrows0, wrapLoop_flatten]
          rfl
        have hrec : splitLens (sizeNode r i (ts.map (sizeTree r))).rowLens
            (Sized.dims (sizeNode r i (ts.map (sizeTree r))).children) = rows0 := by
          rw [hlens]
          exact splitLens_recover hflat
        refine ⟨?_, fun fr _ => rowContrib_cases GAP_H fr.1 fr.2, ?_⟩
        · rw [hrec, hEq]
          rfl
        · rw [hrec]
          exact gridwrap_geometry _ x y GAP_H GAP_V rows0
            (Or.inr ⟨hlayS, rfl, rfl⟩) hlens hflat
      · -- Row: contradicts the hypothesis
        have hlayS : (sizeNode r i (ts.map (sizeTree r))).layout = .row := by
          rw [hEq]
          rfl
        rcases hlay with ⟨hl, _⟩ | ⟨hl, _⟩ <;> (rw [hlayS] at hl; simp at hl)

theorem claim_C5_witness :
    ((sizeTree 1 treeFive).layout = .grid ∧ GRID_GAP = GRID_GAP) ∧
    ((sizeTree 1 treeFive).w = max CARD_WIDTH (maxList (rowContribs GRID_GAP
      (splitLens (sizeTree 1 treeFive).rowLens
        (Sized.dims (sizeTree 1 treeFive).children)))) ∧
    (∀ fr ∈ lastFlags (splitLens (sizeTree 1 treeFive).rowLens
        (Sized.dims (sizeTree 1 treeFive).children)),
      (∀ c, fr.1 = true → fr.2 = [c] → rowContrib GRID_GAP fr.1 fr.2 = c.1) ∧
      (¬(fr.1 = true ∧ fr.2.length = 1) →
        rowContrib GRID_GAP fr.1 fr.2 =
          2 * max (packedW GRID_GAP ((fr.2.take (midOf fr.2.length)).map Prod.fst) +
              CHANNEL_WIDTH / 2)
            (packedW GRID_GAP ((fr.2.drop (midOf fr.2.length)).map Prod.fst) +
              CHANNEL_WIDTH / 2))) ∧
    (∀ zz ∈ (lastFlags (splitLens (sizeTree 1 treeFive).rowLens
        (Sized.dims (sizeTree 1 treeFive).children))).zip
          (positionNode (sizeTree 1 treeFive) 0 0).rows,
      (zz.1.1 = true ∧ zz.1.2.length = 1 → ∃ c, zz.2 = [c] ∧ c.x = 0) ∧
      (¬(zz.1.1 = true ∧ zz.1.2.length = 1) →
        (∀ cl, (zz.2.take (midOf zz.1.2.length)).getLast? = some cl →
          cl.x + cl.w / 2 = 0 - CHANNEL_WIDTH / 2) ∧
        (∀ ch, (zz.2.drop (midOf zz.1.2.length)).head? = some ch →
          ch.x - ch.w / 2 = 0 + CHANNEL_WIDTH / 2)))) :=
  ⟨⟨by with_unfolding_all decide, rfl⟩,
    claim_C5 1 treeFive 0 0 GRID_GAP
      (Or.inl ⟨by with_unfolding_all decide, rfl⟩)⟩

theorem rowSpan_snd_length (cap : ℚ) :
    ∀ (cs : List (ℚ × ℚ)) (acc : ℚ), (rowSpan cap acc cs).2.length ≤ cs.length := by
  intro cs
  induction cs with
  | nil => intro acc; simp [rowSpan]
  | cons c cs ih =>
    intro acc
    rw [rowSpan]
    by_cases h : gtSqrt (acc + c.1) cap
    · rw [if_pos h]
    · rw [if_neg h]
      exact Nat.le_succ_of_le (ih (acc + c.1 + GAP_H))

theorem rowsGo_fuel (cap : ℚ) :
    ∀ (f g : ℕ) (cs : List (ℚ × ℚ)), cs.length ≤ f → cs.length ≤ g →
      rowsGo cap f cs = rowsGo cap g cs := by
  intro f
  induction f with
  | zero =>
    intro g cs h _
    cases cs with
    | nil => cases g <;> rfl
    | cons c cs => simp at h
  | succ f ih =>
    intro g cs h hg
    cases cs with
    | nil => cases g <;> rfl
    | cons c cs =>
      cases g with
      | zero => simp at hg
      | succ g =>
        rw [rowsGo, rowsGo]
        have hs := rowSpan_snd_length cap cs c.1
        simp only [List.length_cons] at h hg
        rw [ih g _ (by omega) (by omega)]

theorem laterRows_cons (cap : ℚ) (c : ℚ × ℚ) (cs : List (ℚ × ℚ)) :
    laterRows cap (c :: cs) =
      (c :: (rowSpan cap c.1 cs).1) :: laterRows cap (rowSpan cap c.1 cs).2 := by
  simp only [laterRows, List.length_cons]
  rw [rowsGo]
  congr 1
  exact rowsGo_fuel cap cs.length (rowSpan cap c.1 cs).2.length _
    (rowSpan_snd_length cap cs c.1) le_rfl

/-- The greedy loop with a nonempty current row, expressed row by row. -/
theorem wrapLoop_go (cap : ℚ) :
    ∀ (cs : List (ℚ × ℚ)) (rows : List (List (ℚ × ℚ)))
      (cur : List (ℚ × ℚ)) (crw : ℚ), cur ≠ [] →
      wrapLoop cap rows cur crw cs =
        rows ++ ((cur ++ (rowSpan cap crw cs).1) ::
          laterRows cap (rowSpan cap crw cs).2) := by
  intro cs
  induction cs with
  | nil =>
    intro rows cur crw hne
    rw [wrapLoop, if_neg (by simpa [List.isEmpty_iff] using hne)]
    simp [rowSpan, laterRows, rowsGo]
  | cons c cs ih =>
    intro rows cur crw hne
    rw [wrapLoop]
    have hcur : (!cur.isEmpty) = true := by simp [List.isEmpty_iff, hne]
    by_cases h : gtSqrt (crw + c.1) cap = true
    · rw [if_pos (by rw [h, hcur]; rfl)]
      rw [ih (rows ++ [cur]) [c] c.1 (by simp)]
      rw [show rowSpan cap crw (c :: cs) = ([], c :: cs) by rw [rowSpan, if_pos h]]
      rw [laterRows_cons]
      simp
    · rw [if_neg (by simp [h])]
      rw [ih rows (cur ++ [c]) (crw + c.1 + GAP_H) (by simp)]
      rw [show rowSpan cap crw (c :: cs) =
          (c :: (rowSpan cap (crw + c.1 + GAP_H) cs).1,
            (rowSpan cap (crw + c.1 + GAP_H) cs).2) by
        rw [rowSpan, if_neg h]]
      simp

/-- The source's greedy loop, from its initial state, equals the structured
row-by-row description: the first row's accumulator carries a trailing gap,
later rows start from their first child's bare width. -/
theorem wrapLoop_eq_wrapRows (cap : ℚ) (cs : List (ℚ × ℚ)) :
    wrapLoop cap [] [] 0 cs = wrapRows cap cs := by
  cases cs with
  | nil => rfl
  | cons c cs =>
    rw [wrapLoop, if_neg (by simp)]
    rw [wrapLoop_go cap cs [] ([] ++ [c]) (0 + c.1 + GAP_H) (by simp)]
    have h0 : (0 : ℚ) + c.1 + GAP_H = c.1 + GAP_H := by ring
    rw [h0, wrapRows]
    simp

/-- C3 (amended): for a nonempty, non-grid-eligible child list, the sizer
chooses Wrap exactly when ratio > r*1.5 and count >= 3; the overflow cap is
the square of idealRowWidth = sqrt(linearWidth * maxChildHeight * r) (the
test `x > idealRowWidth` is `gtSqrt x cap`, equivalent to
`Real.sqrt cap < x`); and the chosen rows are the greedy rows in which the
FIRST row's accumulated width keeps a trailing GAP_H after every added
child while every LATER row restarts from its first child's bare width —
not the uniform packed-width rule the spec describes. -/
theorem claim_C3 (r : ℚ) (i : ℕ) (ts : List OrgTree) (hne : ts ≠ [])
    (hng : ¬((∀ c ∈ ts.map (sizeTree r), c.children = []) ∧
      3 < (ts.map (sizeTree r)).length)) :
    ((sizeTree r (.node i ts)).layout = .wrap ↔
      (r * 1.5 < currentRatioOf (Sized.dims (ts.map (sizeTree r))) ∧
        3 ≤ (ts.map (sizeTree r)).length)) ∧
    ((sizeTree r (.node i ts)).layout = .wrap →
      (sizeTree r (.node i ts)).rowLens =
        (wrapRows (wrapCap r (Sized.dims (ts.map (sizeTree r))))
          (Sized.dims (ts.map (sizeTree r)))).map List.length) ∧
    (0 ≤ wrapCap r (Sized.dims (ts.map (sizeTree r))) →
      ∀ q : ℚ, gtSqrt q (wrapCap r (Sized.dims (ts.map (sizeTree r)))) = true ↔
        Real.sqrt ((wrapCap r (Sized.dims (ts.map (sizeTree r))) : ℚ) : ℝ) <
          (q : ℝ)) := by
  rw [sizeTree_node]
  have hne2 : ts.map (sizeTree r) ≠ [] := by
    simpa using hne
  have hng2 : (((ts.map (sizeTree r)).all fun c => c.children.isEmpty) &&
      decide (3 < (ts.map (sizeTree r)).length)) = false := by
    rcases Bool.eq_false_or_eq_true (((ts.map (sizeTree r)).all
        fun c => c.children.isEmpty) && decide (3 < (ts.map (sizeTree r)).length))
      with h | h
    · exact absurd ((gridEligible_iff _).mp h) hng
    · exact h
  refine ⟨?_, ?_, fun hc q => gtSqrt_iff hc⟩
  · constructor
    · intro hl
      by_contra hnr
      rw [sizeNode_row hne2 hng2 hnr] at hl
      simp [Sized.layout] at hl
    · intro hra
      rw [sizeNode_wrap hne2 hng2 hra.1 hra.2]
      rfl
  · intro hl
    rcases sizeNode_three_cases r i (ts.map (sizeTree r)) hne2 with
      ⟨hall, hcnt, _⟩ | ⟨_, _, _, hEq⟩ | ⟨_, _, hEq⟩
    · exact absurd ((gridEligible_iff _).mpr ⟨hall, hcnt⟩)
        (by rw [hng2]; simp)
    · rw [hEq, ← wrapLoop_eq_wrapRows]
      rfl
    · rw [hEq] at hl
      simp [Sized.layout] at hl

theorem claim_C3_witness :
    treeFour.children ≠ [] ∧
    ¬((∀ c ∈ treeFour.children.map (sizeTree (9/10)), c.children = []) ∧
      3 < (treeFour.children.map (sizeTree (9/10))).length) ∧
    (((sizeTree (9/10) (.node 0 treeFour.children)).layout = .wrap ↔
      ((9/10 : ℚ) * 1.5 <
          currentRatioOf (Sized.dims (treeFour.children.map (sizeTree (9/10)))) ∧
        3 ≤ (treeFour.children.map (sizeTree (9/10))).length)) ∧
    ((sizeTree (9/10) (.node 0 treeFour.children)).layout = .wrap →
      (sizeTree (9/10) (.node 0 treeFour.children)).rowLens =
        (wrapRows (wrapCap (9/10)
            (Sized.dims (treeFour.children.map (sizeTree (9/10)))))
          (Sized.dims (treeFour.children.map (sizeTree (9/10))))).map List.length) ∧
    (0 ≤ wrapCap (9/10) (Sized.dims (treeFour.children.map (sizeTree (9/10)))) →
      ∀ q : ℚ, gtSqrt q (wrapCap (9/10)
          (Sized.dims (treeFour.children.map (sizeTree (9/10))))) = true ↔
        Real.sqrt ((wrapCap (9/10)
            (Sized.dims (treeFour.children.map (sizeTree (9/10)))) : ℚ) : ℝ) <
          (q : ℝ))) := by
  have h1 : treeFour.children ≠ [] := by simp [treeFour, OrgTree.children]
  have h2 : ¬((∀ c ∈ treeFour.children.map (sizeTree (9/10)), c.children = []) ∧
      3 < (treeFour.children.map (sizeTree (9/10))).length) := by
    intro h
    have hm : OrgTree.node 1 [leafT 10] ∈ treeFour.children := by
      simp [treeFour, OrgTree.children]
    have h1c := h.1 (sizeTree (9/10) (.node 1 [leafT 10]))
      (List.mem_map_of_mem _ hm)
    rw [sizeTree_children] at h1c
    simp [OrgTree.children] at h1c
  exact ⟨h1, h2, claim_C3 (9/10) 0 treeFour.children h1 h2⟩

/-- C3 counterexample to the spec's uniform greedy description: at
r = 9/10, treeFour wraps into rows of sizes [1, 2, 1], while a greedy that
adds a child exactly when the packed row width would not exceed the ideal
row width (the spec's wording, `specWrapRows`) yields [1, 1, 1, 1]: the
source carries a trailing gap in the first row's accumulator only, so
later rows accept one extra child. -/
theorem claim_C3_counterexample :
    (sizeTree (9/10) treeFour).layout = .wrap ∧
    (sizeTree (9/10) treeFour).rowLens = [1, 2, 1] ∧
    (specWrapRows (wrapCap (9/10)
        (Sized.dims (treeFour.children.map (sizeTree (9/10)))))
      [] (Sized.dims (treeFour.children.map (sizeTree (9/10))))).map List.length =
      [1, 1, 1, 1] ∧
    ¬((sizeTree (9/10) treeFour).rowLens =
      (specWrapRows (wrapCap (9/10)
          (Sized.dims (treeFour.children.map (sizeTree (9/10)))))
        [] (Sized.dims (treeFour.children.map (sizeTree (9/10))))).map
          List.length) := by
  with_unfolding_all decide

/-- Every node of the positioned layout whose id is collapsed is laid out
as a bare leaf card: footprint (W, H), Leaf layout, and no children (so
none of its descendants is positioned or enters the bounds fold). -/
theorem collapsed_leaf (r : ℚ) (ids : List ℕ) : ∀ (t : OrgTree) (x y : ℚ),
    ∀ p ∈ allPNodes (positionNode (sizeTree r (applyCollapse ids t)) x y),
      p.id ∈ ids →
      p.w = CARD_WIDTH ∧ p.h = CARD_HEIGHT ∧ p.layout = .leaf ∧
        p.children = [] := by
  refine orgTreeInd (fun i cs IH x y p hp hid => ?_)
  by_cases hi : i ∈ ids
  · rw [show applyCollapse ids (.node i cs) = .node i [] by
      rw [applyCollapse, if_pos hi]] at hp
    rw [sizeTree_node, show List.map (sizeTree r) ([] : List OrgTree) = []
      from rfl, sizeNode_nil] at hp
    rw [allPNodes_eq] at hp
    rcases List.mem_cons.mp hp with rfl | hp
    · exact ⟨rfl, rfl, rfl, rfl⟩
    · rw [positionNode_children] at hp
      rcases mem_allPNodesList.mp hp with ⟨pc, hpc, _⟩
      simp [positionList] at hpc
  · rw [show applyCollapse ids (.node i cs) = .node i (applyCollapseList ids cs) by
      rw [applyCollapse, if_neg hi]] at hp
    rw [allPNodes_eq] at hp
    rcases List.mem_cons.mp hp with rfl | hp
    · rw [positionNode_id, sizeTree_node, sizeNode_id] at hid
      exact absurd hid hi
    · rw [positionNode_children] at hp
      rcases mem_allPNodesList.mp hp with ⟨pc, hpc, hpin⟩
      rcases mem_positionList hpc with ⟨z, hz, rfl⟩
      have hz1 := (List.of_mem_zip hz).1
      rw [sizeTree_children] at hz1
      rcases List.mem_map.mp hz1 with ⟨t0, ht0, hz1e⟩
      have ht0b : t0 ∈ applyCollapseList ids cs := ht0
      rw [applyCollapseList_eq_map] at ht0b
      rcases List.mem_map.mp ht0b with ⟨t1, ht1, rfl⟩
      refine IH t1 ht1 z.2.1 z.2.2 p ?_ hid
      rw [hz1e]
      exact hpin

/-- C7 (amended): every node whose id is in the collapsed-id set is placed
as a leaf-sized card — footprint exactly (W, H), layoutType Leaf — and has
no positioned children, so its descendants receive no coordinates and
contribute nothing to the bounding rectangle. -/
theorem claim_C7 (r : ℚ) (ids : List ℕ) (t : OrgTree) :
    ∀ p ∈ allPNodes (computeBalancedLayout r ids t), p.id ∈ ids →
      p.w = CARD_WIDTH ∧ p.h = CARD_HEIGHT ∧ p.layout = .leaf ∧
        p.children = [] := by
  intro p hp hid
  exact collapsed_leaf r ids t 0 0 p hp hid

theorem claim_C7_witness :
    (computeBalancedLayout 1 [1] (.node 1 [leafT 10])) ∈
      allPNodes (computeBalancedLayout 1 [1] (.node 1 [leafT 10])) ∧
    (computeBalancedLayout 1 [1] (.node 1 [leafT 10])).id ∈ [1] ∧
    ((computeBalancedLayout 1 [1] (.node 1 [leafT 10])).w = CARD_WIDTH ∧
      (computeBalancedLayout 1 [1] (.node 1 [leafT 10])).h = CARD_HEIGHT ∧
      (computeBalancedLayout 1 [1] (.node 1 [leafT 10])).layout = .leaf ∧
      (computeBalancedLayout 1 [1] (.node 1 [leafT 10])).children = []) :=
  ⟨self_mem_allPNodes _, by with_unfolding_all decide,
    claim_C7 1 [1] (.node 1 [leafT 10]) _ (self_mem_allPNodes _)
      (by with_unfolding_all decide)⟩

/-- C7 counterexample to the containment sentence: collapsing node 1 of
treeWide at r = 2 GROWS the bounding rectangle's maxX from 195 to 290 (the
root switches from Wrap to Row when the wide child shrinks to a card), so
the collapsed bounds are not contained in the expanded ones. -/
theorem claim_C7_counterexample :
    boundsMaxX (computeBalancedLayout 2 [] treeWide) = 195 ∧
    boundsMaxX (computeBalancedLayout 2 [1] treeWide) = 290 ∧
    ¬(boundsMaxX (computeBalancedLayout 2 [1] treeWide) ≤
      boundsMaxX (computeBalancedLayout 2 [] treeWide)) := by
  with_unfolding_all decide

theorem gtSqrt_mono {x y cap1 cap2 : ℚ} (hx : x ≤ y) (hc : cap1 ≤ cap2)
    (h : gtSqrt x cap2 = true) : gtSqrt y cap1 = true := by
  unfold gtSqrt at h ⊢
  rw [decide_eq_true_iff] at h ⊢
  obtain ⟨h0, hlt⟩ := h
  exact ⟨le_trans h0 hx,
    lt_of_le_of_lt hc (lt_of_lt_of_le hlt (pow_le_pow_left h0 hx 2))⟩

/-- Monotonicity of the greedy row count, from any mid-row state: with a
larger cap (and an accumulator not larger), the loop never produces more
rows; with any accumulators it produces at most one row more. -/
theorem wrap_count_mono :
    ∀ (cs : List (ℚ × ℚ)), (∀ d ∈ cs, 0 ≤ d.1) →
    ∀ (cap1 cap2 acc1 acc2 : ℚ), cap1 ≤ cap2 → 0 ≤ acc1 → 0 ≤ acc2 →
      ((acc2 ≤ acc1 →
        (laterRows cap2 ((rowSpan cap2 acc2 cs).2)).length ≤
          (laterRows cap1 ((rowSpan cap1 acc1 cs).2)).length) ∧
      (laterRows cap2 ((rowSpan cap2 acc2 cs).2)).length ≤
        (laterRows cap1 ((rowSpan cap1 acc1 cs).2)).length + 1) := by
  intro cs
  induction cs with
  | nil =>
    intro _ cap1 cap2 acc1 acc2 _ _ _
    constructor
    · intro _
      simp [rowSpan, laterRows, rowsGo]
    · simp [rowSpan, laterRows, rowsGo]
  | cons c cs ih =>
    intro hw cap1 cap2 acc1 acc2 hcap hacc1 hacc2
    have hc0 : 0 ≤ c.1 := hw c (List.mem_cons_self _ _)
    have hw2 : ∀ d ∈ cs, 0 ≤ d.1 := fun d hd => hw d (List.mem_cons_of_mem _ hd)
    have hG : (0 : ℚ) ≤ GAP_H := by norm_num [GAP_H]
    by_cases h2 : gtSqrt (acc2 + c.1) cap2 = true
    · have hs2 : rowSpan cap2 acc2 (c :: cs) = ([], c :: cs) := by
        rw [rowSpan, if_pos h2]
      constructor
      · intro hacc
        have h1t : gtSqrt (acc1 + c.1) cap1 = true :=
          gtSqrt_mono (by linarith) hcap h2
        have hs1 : rowSpan cap1 acc1 (c :: cs) = ([], c :: cs) := by
          rw [rowSpan, if_pos h1t]
        rw [hs2, hs1, laterRows_cons, laterRows_cons]
        simp only [List.length_cons]
        have h := (ih hw2 cap1 cap2 c.1 c.1 hcap hc0 hc0).1 le_rfl
        omega
      · by_cases h1t : gtSqrt (acc1 + c.1) cap1 = true
        · have hs1 : rowSpan cap1 acc1 (c :: cs) = ([], c :: cs) := by
            rw [rowSpan, if_pos h1t]
          rw [hs2, hs1, laterRows_cons, laterRows_cons]
          simp only [List.length_cons]
          have h := (ih hw2 cap1 cap2 c.1 c.1 hcap hc0 hc0).1 le_rfl
          omega
        · have hs1 : rowSpan cap1 acc1 (c :: cs) =
              (c :: (rowSpan cap1 (acc1 + c.1 + GAP_H) cs).1,
                (rowSpan cap1 (acc1 + c.1 + GAP_H) cs).2) := by
            rw [rowSpan, if_neg h1t]
          rw [hs2, hs1, laterRows_cons]
          simp only [List.length_cons]
          have h := (ih hw2 cap1 cap2 (acc1 + c.1 + GAP_H) c.1 hcap
            (by linarith) hc0).1 (by linarith)
          omega
    · have hs2 : rowSpan cap2 acc2 (c :: cs) =
          (c :: (rowSpan cap2 (acc2 + c.1 + GAP_H) cs).1,
            (rowSpan cap2 (acc2 + c.1 + GAP_H) cs).2) := by
        rw [rowSpan, if_neg h2]
      by_cases h1t : gtSqrt (acc1 + c.1) cap1 = true
      · have hs1 : rowSpan cap1 acc1 (c :: cs) = ([], c :: cs) := by
          rw [rowSpan, if_pos h1t]
        have h := (ih hw2 cap1 cap2 c.1 (acc2 + c.1 + GAP_H) hcap hc0
          (by linarith)).2
        constructor
        · intro _
          rw [hs2, hs1, laterRows_cons]
          simp only [List.length_cons]
          omega
        · rw [hs2, hs1, laterRows_cons]
          simp only [List.length_cons]
          omega
      · have hs1 : rowSpan cap1 acc1 (c :: cs) =
            (c :: (rowSpan cap1 (acc1 + c.1 + GAP_H) cs).1,
              (rowSpan cap1 (acc1 + c.1 + GAP_H) cs).2) := by
          rw [rowSpan, if_neg h1t]
        constructor
        · intro hacc
          rw [hs2, hs1]
          exact (ih hw2 cap1 cap2 (acc1 + c.1 + GAP_H) (acc2 + c.1 + GAP_H) hcap
            (by linarith) (by linarith)).1 (by linarith)
        · rw [hs2, hs1]
          exact (ih hw2 cap1 cap2 (acc1 + c.1 + GAP_H) (acc2 + c.1 + GAP_H) hcap
            (by linarith) (by linarith)).2

/-- Raising the cap (the square of the ideal row width) never increases
the number of greedy rows. -/
theorem wrapRows_length_antitone {cap1 cap2 : ℚ} (hcap : cap1 ≤ cap2)
    (cs : List (ℚ × ℚ)) (hw : ∀ d ∈ cs, 0 ≤ d.1) :
    (wrapRows cap2 cs).length ≤ (wrapRows cap1 cs).length := by
  cases cs with
  | nil => simp [wrapRows]
  | cons c cs =>
    rw [wrapRows, wrapRows]
    simp only [List.length_cons]
    have hc0 : 0 ≤ c.1 := hw c (List.mem_cons_self _ _)
    have hw2 : ∀ d ∈ cs, 0 ≤ d.1 := fun d hd => hw d (List.mem_cons_of_mem _ hd)
    have hG : (0 : ℚ) ≤ GAP_H := by norm_num [GAP_H]
    have h := (wrap_count_mono cs hw2 cap1 cap2 (c.1 + GAP_H) (c.1 + GAP_H) hcap
      (by linarith) (by linarith)).1 le_rfl
    omega

/-- Four or more all-leaf children always take the Grid layout, for every
aspect ratio: no all-leaf child set with more than 3 children is ever
eligible for Wrap. -/
theorem allLeaf_grid (r : ℚ) (i : ℕ) (ts : List OrgTree) (hne : ts ≠ [])
    (hleaf : ∀ t ∈ ts, t.children = []) (hcnt : 3 < ts.length) :
    (sizeTree r (.node i ts)).layout = .grid := by
  rw [sizeTree_node]
  have hne2 : ts.map (sizeTree r) ≠ [] := by simpa using hne
  have hall : ∀ c ∈ ts.map (sizeTree r), c.children = [] := by
    intro c hc
    rcases List.mem_map.mp hc with ⟨t0, ht0, rfl⟩
    rw [sizeTree_children, hleaf t0 ht0]
    rfl
  rw [sizeNode_grid hne2 hall (by simpa using hcnt)]
  rfl

/-- C8 (amended): for at least 4 children whose footprints do not depend on
the aspect ratio, if the parent takes the Wrap layout at the larger ratio
r2, it also wraps at any smaller positive ratio r1, and the row count at r2
is at most the row count at r1: increasing the target aspect ratio never
increases the chosen row count (equivalently, decreasing it never decreases
the count).  Note that the original premise "at least 4 LEAF children
eligible for Wrap" is unsatisfiable: more than 3 all-leaf children always
take Grid (`allLeaf_grid`). -/
theorem claim_C8 (r1 r2 : ℚ) (i : ℕ) (ts : List OrgTree)
    (hr1 : 0 < r1) (hr : r1 ≤ r2) (h4 : 4 ≤ ts.length)
    (hfix : Sized.dims (ts.map (sizeTree r1)) = Sized.dims (ts.map (sizeTree r2)))
    (hW : (sizeTree r2 (.node i ts)).layout = .wrap) :
    (sizeTree r1 (.node i ts)).layout = .wrap ∧
    (sizeTree r2 (.node i ts)).rowLens.length ≤
      (sizeTree r1 (.node i ts)).rowLens.length := by
  rw [sizeTree_node] at hW
  rw [sizeTree_node, sizeTree_node]
  have hts : ts ≠ [] := by
    intro h
    rw [h] at h4
    simp at h4
  have hne1 : ts.map (sizeTree r1) ≠ [] := by simpa using hts
  have hne2 : ts.map (sizeTree r2) ≠ [] := by simpa using hts
  rcases sizeNode_three_cases r2 i (ts.map (sizeTree r2)) hne2 with
    ⟨_, _, hEq⟩ | ⟨hng2, hra2, hcnt2, hEq2⟩ | ⟨_, _, hEq⟩
  · rw [hEq] at hW
    simp [Sized.layout] at hW
  · have hng1 : ¬((∀ c ∈ ts.map (sizeTree r1), c.children = []) ∧
        3 < (ts.map (sizeTree r1)).length) := by
      intro h
      refine hng2 ⟨?_, by
        rw [List.length_map]
        rw [List.length_map] at h
        exact h.2⟩
      intro c hc
      rcases List.mem_map.mp hc with ⟨t0, ht0, rfl⟩
      have h1 := h.1 (sizeTree r1 t0) (List.mem_map_of_mem _ ht0)
      rw [sizeTree_children] at h1 ⊢
      simp at h1 ⊢
      exact h1
    have hngb1 : (((ts.map (sizeTree r1)).all fun c => c.children.isEmpty) &&
        decide (3 < (ts.map (sizeTree r1)).length)) = false := by
      rcases Bool.eq_false_or_eq_true (((ts.map (sizeTree r1)).all
          fun c => c.children.isEmpty) &&
          decide (3 < (ts.map (sizeTree r1)).length)) with h | h
      · exact absurd ((gridEligible_iff _).mp h) hng1
      · exact h
    have hra1 : r1 * 1.5 < currentRatioOf (Sized.dims (ts.map (sizeTree r1))) := by
      rw [hfix]
      have := mul_le_mul_of_nonneg_right hr (by norm_num : (0 : ℚ) ≤ 1.5)
      linarith
    have hcnt1 : 3 ≤ (ts.map (sizeTree r1)).length := by
      rw [List.length_map]
      omega
    have hEq1 := sizeNode_wrap (r := r1) (i := i) hne1 hngb1 hra1 hcnt1
    have hwge : ∀ c ∈ ts.map (sizeTree r2), CARD_WIDTH ≤ c.w := by
      intro c hc
      rcases List.mem_map.mp hc with ⟨t0, _, rfl⟩
      exact sizeTree_w_ge r2 t0
    refine ⟨by rw [hEq1]; rfl, ?_⟩
    rw [hEq1, hEq2]
    show ((wrapLoop (wrapCap r2 (Sized.dims (ts.map (sizeTree r2)))) [] [] 0
        (Sized.dims (ts.map (sizeTree r2)))).map List.length).length ≤
      ((wrapLoop (wrapCap r1 (Sized.dims (ts.map (sizeTree r1)))) [] [] 0
        (Sized.dims (ts.map (sizeTree r1)))).map List.length).length
    rw [List.length_map, List.length_map, wrapLoop_eq_wrapRows,
      wrapLoop_eq_wrapRows, hfix]
    refine wrapRows_length_antitone ?_ _ (dims_fst_nonneg hwge)
    show wrapCap r1 (Sized.dims (ts.map (sizeTree r2))) ≤
      wrapCap r2 (Sized.dims (ts.map (sizeTree r2)))
    unfold wrapCap
    have h1 : 0 ≤ linearWidth (Sized.dims (ts.map (sizeTree r2))) := by
      unfold linearWidth
      refine packedW_nonneg (by norm_num [GAP_H]) ?_
      intro w hw
      rcases List.mem_map.mp hw with ⟨d, hd, rfl⟩
      exact dims_fst_nonneg hwge d hd
    have h2 : 0 ≤ maxChildHeight (Sized.dims (ts.map (sizeTree r2))) :=
      maxList_nonneg _
    exact mul_le_mul_of_nonneg_left hr (mul_nonneg h1 h2)
  · rw [hEq] at hW
    simp [Sized.layout] at hW

theorem claim_C8_witness :
    ((0 : ℚ) < 1/2 ∧ (1/2 : ℚ) ≤ 9/10 ∧ 4 ≤ treeFour.children.length ∧
      Sized.dims (treeFour.children.map (sizeTree (1/2))) =
        Sized.dims (treeFour.children.map (sizeTree (9/10))) ∧
      (sizeTree (9/10) (.node 0 treeFour.children)).layout = .wrap) ∧
    ((sizeTree (1/2) (.node 0 treeFour.children)).layout = .wrap ∧
      (sizeTree (9/10) (.node 0 treeFour.children)).rowLens.length ≤
        (sizeTree (1/2) (.node 0 treeFour.children)).rowLens.length) :=
  ⟨⟨by norm_num, by norm_num, by with_unfolding_all decide,
      by with_unfolding_all decide, by with_unfolding_all decide⟩,
    claim_C8 (1/2) (9/10) 0 treeFour.children (by norm_num) (by norm_num)
      (by with_unfolding_all decide) (by with_unfolding_all decide)
      (by with_unfolding_all decide)⟩

/-- C8 counterexample to the premise as stated: a set of 4 leaf children is
never eligible for Wrap — the sizer picks Grid at small, unit and large
aspect ratios alike (and `allLeaf_grid` proves this for every ratio). -/
theorem claim_C8_counterexample :
    (sizeTree (1/2) (.node 0 [leafT 1, leafT 2, leafT 3, leafT 4])).layout =
      .grid ∧
    (sizeTree 1 (.node 0 [leafT 1, leafT 2, leafT 3, leafT 4])).layout =
      .grid ∧
    (sizeTree 100 (.node 0 [leafT 1, leafT 2, leafT 3, leafT 4])).layout =
      .grid ∧
    ¬((sizeTree 1 (.node 0 [leafT 1, leafT 2, leafT 3, leafT 4])).layout =
      .wrap) := by
  with_unfolding_all decide
